import Mathlib

/- Verification development for the range_of_ptrs toolkit
   (RangeOfPointers.hpp): sequence algorithms over ranges of owning
   pointers.  The embedding models the C++ heap explicitly: an address is
   an index into a store of optional values (`none` = freed), every
   `delete` of a non-null pointer is recorded in a `freed` journal, and a
   run either returns normally or stops with a failed assertion, undefined
   behaviour (invalid dereference), or a propagating exception. -/

namespace range_of_ptrs

/-- Heap addresses. -/
abbrev Addr := Nat

/-- A pointer slot: `none` models the C++ null pointer. -/
abbrev Ptr := Option Addr

/-- Abnormal outcomes of a run: a failed `assert`, undefined behaviour
    (dereference of a null, dangling or out-of-range pointer/iterator),
    or a propagating C++ exception. -/
inductive CErr where
  | assertFail
  | ub
  | ex
deriving DecidableEq

/-- The heap.  `store` maps an address (a list index) to `some v` while a
    live object holding `v` is allocated there and `none` once it is
    freed; `freed` records every `delete` of a non-null pointer, most
    recent first.  Fresh allocations always extend the store, so a live
    address is never handed out twice. -/
structure Heap (α : Type) where
  store : List (Option α)
  freed : List Addr
deriving DecidableEq

variable {α : Type}

/-- Read the object at address `a`: `some v` iff a live object holding
    `v` is there. -/
def Heap.read (h : Heap α) (a : Addr) : Option α := h.store.getD a none

/-- Overwrite the live object at address `a` (no effect out of range). -/
def Heap.write (h : Heap α) (a : Addr) (v : α) : Heap α :=
  { h with store := h.store.set a (some v) }

/-- Allocate a fresh object holding `v`, returning its address. -/
def Heap.alloc (h : Heap α) (v : α) : Addr × Heap α :=
  (h.store.length, { h with store := h.store ++ [some v] })

/-- C++ `delete p`: deleting the null pointer is a no-op; otherwise the
    pointee is freed and the deletion is journaled. -/
def deletePtr (h : Heap α) (p : Ptr) : Heap α :=
  match p with
  | none => h
  | some a => { store := h.store.set a none, freed := a :: h.freed }

/-- The pointee of `p`: `some v` iff `p` is non-null and points to a live
    object holding `v`. -/
def ptVal (h : Heap α) (p : Ptr) : Option α := p.bind h.read

/-- Pointees of a list of slots. -/
def ptVals (h : Heap α) (ps : List Ptr) : List (Option α) := ps.map (ptVal h)

/-- Addresses of the non-null pointers among a list of slots. -/
def ptrAddrs (ps : List Ptr) : List Addr := ps.filterMap id

/-- A C++ `assert`: stops the run when the condition is false. -/
def cassert (b : Bool) : Except CErr Unit :=
  if b then .ok () else .error .assertFail

/-- Dereference for reading: undefined behaviour on a null or dangling
    pointer. -/
def readPtr (h : Heap α) (p : Ptr) : Except CErr α :=
  match ptVal h p with
  | some v => .ok v
  | none => .error .ub

/-- Dereference for writing: undefined behaviour on a null or dangling
    pointer. -/
def writePtr (h : Heap α) (p : Ptr) (v : α) : Except CErr (Heap α) :=
  match p with
  | some a =>
    match h.read a with
    | some _ => .ok (h.write a v)
    | none => .error .ub
  | none => .error .ub

instance {e b : Type} [DecidableEq e] [DecidableEq b] : DecidableEq (Except e b) := fun x y =>
  match x, y with
  | .ok a, .ok c => if h : a = c then isTrue (by rw [h]) else isFalse (fun he => by cases he; exact h rfl)
  | .error a, .error c => if h : a = c then isTrue (by rw [h]) else isFalse (fun he => by cases he; exact h rfl)
  | .ok _, .error _ => isFalse (fun he => Except.noConfusion he)
  | .error _, .ok _ => isFalse (fun he => Except.noConfusion he)

/- ### Basic list-store lemmas -/

theorem getD_set_self (l : List (Option α)) (a : Nat) (o : Option α) :
    (l.set a o).getD a none = if a < l.length then o else none := by
  induction l generalizing a with
  | nil => simp [List.getD]
  | cons x xs ih =>
    cases a with
    | zero => simp [List.getD]
    | succ n => simpa [List.getD, Nat.succ_lt_succ_iff] using ih n

theorem getD_set_self_lt (l : List (Option α)) {a : Nat} (o : Option α)
    (ha : a < l.length) : (l.set a o).getD a none = o := by
  rw [getD_set_self]
  simp [ha]

theorem getD_set_ne (l : List (Option α)) {a b : Nat} (o : Option α)
    (hne : a ≠ b) : (l.set a o).getD b none = l.getD b none := by
  induction l generalizing a b with
  | nil => simp
  | cons x xs ih =>
    cases a with
    | zero =>
      cases b with
      | zero => exact absurd rfl hne
      | succ m => simp [List.getD]
    | succ n =>
      cases b with
      | zero => simp [List.getD]
      | succ m => simpa [List.getD] using ih (fun hh => hne (by simp [hh]))

theorem getD_append_left (l l' : List (Option α)) {a : Nat}
    (ha : a < l.length) : (l ++ l').getD a none = l.getD a none := by
  induction l generalizing a with
  | nil => simp at ha
  | cons x xs ih =>
    cases a with
    | zero => simp [List.getD]
    | succ n => simpa [List.getD, Nat.succ_lt_succ_iff] using ih (by simpa using ha)

theorem getD_eq_none_of_ge (l : List (Option α)) {a : Nat}
    (ha : l.length ≤ a) : l.getD a none = none := by
  induction l generalizing a with
  | nil => simp [List.getD]
  | cons x xs ih =>
    cases a with
    | zero => simp at ha
    | succ n => simpa [List.getD] using ih (by simpa using ha)

theorem getD_append_self (l : List (Option α)) (o : Option α) :
    (l ++ [o]).getD l.length none = o := by
  induction l with
  | nil => simp [List.getD]
  | cons x xs ih => simp only [List.cons_append, List.length_cons, List.getD]; exact ih

/- ### Heap lemmas -/

theorem Heap.read_lt_length {h : Heap α} {a : Addr} {v : α}
    (hr : h.read a = some v) : a < h.store.length := by
  by_contra hge
  rw [Heap.read, getD_eq_none_of_ge h.store (Nat.le_of_not_lt hge)] at hr
  exact Option.noConfusion hr

theorem Heap.read_write_self {h : Heap α} {a : Addr} {w : α} (v : α)
    (hr : h.read a = some w) : (h.write a v).read a = some v := by
  have hlt := Heap.read_lt_length hr
  show (h.store.set a (some v)).getD a none = some v
  rw [getD_set_self]
  simp [hlt]

theorem Heap.read_write_ne (h : Heap α) {a b : Addr} (v : α) (hne : a ≠ b) :
    (h.write a v).read b = h.read b := by
  show (h.store.set a (some v)).getD b none = h.store.getD b none
  exact getD_set_ne _ _ hne

theorem Heap.read_alloc_old {h : Heap α} {a : Addr} {w : α} (v : α)
    (hr : h.read a = some w) : (h.alloc v).2.read a = some w := by
  have := Heap.read_lt_length hr
  rw [Heap.alloc]
  show (h.store ++ [some v]).getD a none = some w
  rw [getD_append_left _ _ this]; exact hr

theorem Heap.read_alloc_fresh (h : Heap α) (v : α) :
    (h.alloc v).2.read h.store.length = some v := by
  rw [Heap.alloc]
  show (h.store ++ [some v]).getD h.store.length none = some v
  exact getD_append_self _ _

theorem read_delete_ne (h : Heap α) {a b : Addr} (hne : a ≠ b) :
    (deletePtr h (some a)).read b = h.read b := by
  show (h.store.set a none).getD b none = h.store.getD b none
  exact getD_set_ne _ _ hne

theorem read_delete_self (h : Heap α) (a : Addr) :
    (deletePtr h (some a)).read a = none := by
  show (h.store.set a none).getD a none = none
  rw [getD_set_self]
  split <;> rfl

@[simp] theorem ptVals_nil (h : Heap α) : ptVals h [] = [] := rfl

@[simp] theorem ptVals_cons (h : Heap α) (p : Ptr) (ps : List Ptr) :
    ptVals h (p :: ps) = ptVal h p :: ptVals h ps := rfl

@[simp] theorem ptrAddrs_nil : ptrAddrs ([] : List Ptr) = [] := rfl

@[simp] theorem ptrAddrs_cons_some (a : Addr) (ps : List Ptr) :
    ptrAddrs (some a :: ps) = a :: ptrAddrs ps := rfl

@[simp] theorem ptrAddrs_cons_none (ps : List Ptr) :
    ptrAddrs (none :: ps) = ptrAddrs ps := rfl

theorem ptVal_write_notMem {h : Heap α} {p : Ptr} {a : Addr} (v : α)
    (hp : ∀ b, p = some b → b ≠ a) : ptVal (h.write a v) p = ptVal h p := by
  cases p with
  | none => rfl
  | some b => simpa [ptVal] using Heap.read_write_ne h v (Ne.symm (hp b rfl))

theorem ptVals_write_notMem {h : Heap α} {ps : List Ptr} {a : Addr} (v : α)
    (ha : a ∉ ptrAddrs ps) : ptVals (h.write a v) ps = ptVals h ps := by
  induction ps with
  | nil => rfl
  | cons p ps ih =>
    cases p with
    | none =>
      simp only [ptrAddrs_cons_none] at ha
      simp [ptVal, ih ha]
    | some b =>
      simp only [ptrAddrs_cons_some, List.mem_cons] at ha
      push_neg at ha
      simp only [ptVals_cons, ih ha.2]
      congr 1
      exact ptVal_write_notMem v (fun c hc => by cases hc; exact fun he => ha.1 he.symm)

theorem ptVals_delete_notMem {h : Heap α} {ps : List Ptr} {a : Addr}
    (ha : a ∉ ptrAddrs ps) :
    ptVals (deletePtr h (some a)) ps = ptVals h ps := by
  induction ps with
  | nil => rfl
  | cons p ps ih =>
    cases p with
    | none =>
      simp only [ptrAddrs_cons_none] at ha
      simp [ptVal, ih ha]
    | some b =>
      simp only [ptrAddrs_cons_some, List.mem_cons] at ha
      push_neg at ha
      simp only [ptVals_cons, ih ha.2]
      congr 1
      simpa [ptVal] using read_delete_ne h ha.1

theorem ptVals_alloc {h : Heap α} {ps : List Ptr} {qs : List α} (v : α)
    (hlive : ptVals h ps = qs.map some) :
    ptVals (h.alloc v).2 ps = qs.map some := by
  induction ps generalizing qs with
  | nil => cases qs with
    | nil => rfl
    | cons q qs => simp at hlive
  | cons p ps ih =>
    cases qs with
    | nil => simp at hlive
    | cons q qs =>
      simp only [ptVals_cons, List.map_cons, List.cons.injEq] at hlive ⊢
      refine ⟨?_, ih hlive.2⟩
      cases p with
      | none => simp [ptVal] at hlive
      | some b =>
        have : h.read b = some q := by simpa [ptVal] using hlive.1
        simpa [ptVal] using Heap.read_alloc_old v this

theorem ptVal_lt_length {h : Heap α} {p : Ptr} {q : α}
    (hp : ptVal h p = some q) : ∃ a, p = some a ∧ a < h.store.length := by
  cases p with
  | none => simp [ptVal] at hp
  | some a => exact ⟨a, rfl, Heap.read_lt_length (by simpa [ptVal] using hp)⟩

/- ### Copy family (RangeOfPointers.hpp, lines 74-124)

   A source range is the list of its pointer slots; the destination
   iterator is given as the list of destination slots it walks over.
   Each algorithm returns the final heap, the destination slots as they
   stand after the call, and how far the destination iterator advanced
   (the returned iterator, as an offset from the start slot). -/

/-- `Copy(first, last, dest)`: for each source element, after
    `assert(*dest != nullptr)` and `assert(*first != nullptr)`, performs
    `*(*dest) = *(*first)` and advances both iterators. -/
def Copy (h : Heap α) : List Ptr → List Ptr → Except CErr (Heap α × List Ptr × Nat)
  | [], dst => .ok (h, dst, 0)
  | _ :: _, [] => .error .ub
  | s :: src, d :: dst => do
    cassert d.isSome
    cassert s.isSome
    let v ← readPtr h s
    let h' ← writePtr h d v
    let (h'', dst', n) ← Copy h' src dst
    .ok (h'', d :: dst', n + 1)

/-- `CopyN(first, count, dest)`: copies the pointees of the first `count`
    source elements; `count == 0` is a no-op.  The loop dereferences both
    pointers with no assertion. -/
def CopyN (h : Heap α) : List Ptr → Nat → List Ptr → Except CErr (Heap α × List Ptr × Nat)
  | _, 0, dst => .ok (h, dst, 0)
  | s :: src, c + 1, d :: dst => do
    let v ← readPtr h s
    let h' ← writePtr h d v
    let (h'', dst', n) ← CopyN h' src c dst
    .ok (h'', d :: dst', n + 1)
  | _, _ + 1, _ => .error .ub

/-- `CopyBackward(first, last, dest)`: `*(*(--dest)) = *(*(--last))` until
    the source range is exhausted; `dst` lists the slots before `dest`, of
    which the last ones are written.  No assertion guards the
    dereferences. -/
def CopyBackward (h : Heap α) (src dst : List Ptr) : Except CErr (Heap α) :=
  go h src.reverse dst.reverse
where
  go (h : Heap α) : List Ptr → List Ptr → Except CErr (Heap α)
    | [], _ => .ok h
    | s :: src, d :: dst => do
      let v ← readPtr h s
      let h' ← writePtr h d v
      go h' src dst
    | _ :: _, [] => .error .ub

/-- `CopyIf(first, last, dest, pred)`: both assertions run for every
    source element; the pointee is copied, and `dest` advanced, only when
    `pred(*(*first))` holds. -/
def CopyIf (pred : α → Bool) (h : Heap α) :
    List Ptr → List Ptr → Except CErr (Heap α × List Ptr × Nat)
  | [], dst => .ok (h, dst, 0)
  | _ :: _, [] => .error .ub
  | s :: src, d :: dst => do
    cassert d.isSome
    cassert s.isSome
    let v ← readPtr h s
    if pred v then do
      let h' ← writePtr h d v
      let (h'', dst', n) ← CopyIf pred h' src dst
      .ok (h'', d :: dst', n + 1)
    else do
      let (h'', dst', n) ← CopyIf pred h src (d :: dst)
      .ok (h'', dst', n)

/- ### Replace family (RangeOfPointers.hpp, lines 127-157)

   `(*dest)->~ValueType()` followed by `::new (*dest) ValueType(*(*first))`
   destroys the destination pointee and constructs a copy of the source
   pointee in the same storage: on the value level, a write through the
   unchanged destination pointer. -/

/-- `ReplaceCopy(first, last, dest)`: destroy-and-placement-construct the
    source pointee's copy at every destination pointee, in place. -/
def ReplaceCopy (h : Heap α) : List Ptr → List Ptr → Except CErr (Heap α × List Ptr × Nat)
  | [], dst => .ok (h, dst, 0)
  | _ :: _, [] => .error .ub
  | s :: src, d :: dst => do
    cassert d.isSome
    cassert s.isSome
    let v ← readPtr h s
    let h' ← writePtr h d v
    let (h'', dst', n) ← ReplaceCopy h' src dst
    .ok (h'', d :: dst', n + 1)

/-- `ReplaceCopyIf(first, last, dest, pred)`: like `ReplaceCopy` but the
    disposal/construction, and the advance of `dest`, happen only when
    `pred(*(*first))` holds; both assertions run for every element. -/
def ReplaceCopyIf (pred : α → Bool) (h : Heap α) :
    List Ptr → List Ptr → Except CErr (Heap α × List Ptr × Nat)
  | [], dst => .ok (h, dst, 0)
  | _ :: _, [] => .error .ub
  | s :: src, d :: dst => do
    cassert d.isSome
    cassert s.isSome
    let v ← readPtr h s
    if pred v then do
      let h' ← writePtr h d v
      let (h'', dst', n) ← ReplaceCopyIf pred h' src dst
      .ok (h'', d :: dst', n + 1)
    else do
      let (h'', dst', n) ← ReplaceCopyIf pred h src (d :: dst)
      .ok (h'', dst', n)

/- ### Clone family (RangeOfPointers.hpp, lines 160-211)

   `(*first)->Clone()` dereferences the source pointer and returns a
   freshly allocated, independently owned copy of the pointee. -/

/-- `Clone(first, last, dest)`: `*dest = (*first)->Clone()` — the
    destination slot is overwritten with a fresh pointer (the old pointer
    is not disposed of). -/
def Clone (h : Heap α) : List Ptr → List Ptr → Except CErr (Heap α × List Ptr × Nat)
  | [], dst => .ok (h, dst, 0)
  | _ :: _, [] => .error .ub
  | s :: src, d :: dst => do
    cassert d.isSome
    cassert s.isSome
    let v ← readPtr h s
    let (a, h') := h.alloc v
    let (h'', dst', n) ← Clone h' src dst
    .ok (h'', some a :: dst', n + 1)

/-- `CloneIf(first, last, dest, pred)`: clones, and advances `dest`, only
    when `pred(*(*first))` holds; both assertions run for every element. -/
def CloneIf (pred : α → Bool) (h : Heap α) :
    List Ptr → List Ptr → Except CErr (Heap α × List Ptr × Nat)
  | [], dst => .ok (h, dst, 0)
  | _ :: _, [] => .error .ub
  | s :: src, d :: dst => do
    cassert d.isSome
    cassert s.isSome
    let v ← readPtr h s
    if pred v then do
      let (a, h') := h.alloc v
      let (h'', dst', n) ← CloneIf pred h' src dst
      .ok (h'', some a :: dst', n + 1)
    else do
      let (h'', dst', n) ← CloneIf pred h src (d :: dst)
      .ok (h'', dst', n)

/-- `ReplaceClone(first, last, dest)`: `delete(*dest)` then
    `*dest = (*first)->Clone()` — the old destination pointer is deleted
    and the slot overwritten with a fresh pointer. -/
def ReplaceClone (h : Heap α) : List Ptr → List Ptr → Except CErr (Heap α × List Ptr × Nat)
  | [], dst => .ok (h, dst, 0)
  | _ :: _, [] => .error .ub
  | s :: src, d :: dst => do
    cassert d.isSome
    cassert s.isSome
    let h₁ := deletePtr h d
    let v ← readPtr h₁ s
    let (a, h₂) := h₁.alloc v
    let (h'', dst', n) ← ReplaceClone h₂ src dst
    .ok (h'', some a :: dst', n + 1)

/-- `ReplaceCloneIf(first, last, dest, pred)`: deletes the destination
    pointer, clones, and advances `dest`, only when `pred(*(*first))`
    holds; both assertions run for every element. -/
def ReplaceCloneIf (pred : α → Bool) (h : Heap α) :
    List Ptr → List Ptr → Except CErr (Heap α × List Ptr × Nat)
  | [], dst => .ok (h, dst, 0)
  | _ :: _, [] => .error .ub
  | s :: src, d :: dst => do
    cassert d.isSome
    cassert s.isSome
    let v ← readPtr h s
    if pred v then do
      let h₁ := deletePtr h d
      let w ← readPtr h₁ s
      let (a, h₂) := h₁.alloc w
      let (h'', dst', n) ← ReplaceCloneIf pred h₂ src dst
      .ok (h'', some a :: dst', n + 1)
    else do
      let (h'', dst', n) ← ReplaceCloneIf pred h src (d :: dst)
      .ok (h'', dst', n)

/- ### Helper lemmas for the copy/clone family -/

@[simp] theorem exc_bind_ok {β γ : Type} (a : β) (f : β → Except CErr γ) :
    (Except.ok a >>= f : Except CErr γ) = f a := rfl

@[simp] theorem exc_bind_error {β γ : Type} (e : CErr) (f : β → Except CErr γ) :
    ((Except.error e : Except CErr β) >>= f : Except CErr γ) = Except.error e := rfl

@[simp] theorem cassert_some (a : Addr) : cassert (some a : Ptr).isSome = .ok () := rfl

theorem ptrAddrs_append (xs ys : List Ptr) :
    ptrAddrs (xs ++ ys) = ptrAddrs xs ++ ptrAddrs ys := List.filterMap_append _ _ _

theorem addr_lt_of_live {h : Heap α} : ∀ {ps : List Ptr} {qs : List α},
    ptVals h ps = qs.map some → ∀ a ∈ ptrAddrs ps, a < h.store.length := by
  intro ps
  induction ps with
  | nil => intro qs _ a ha; simp at ha
  | cons p ps ih =>
    intro qs hl a ha
    cases qs with
    | nil => simp at hl
    | cons q qs =>
      simp only [ptVals_cons, List.map_cons, List.cons.injEq] at hl
      cases p with
      | none => simp [ptVal] at hl
      | some b =>
        simp only [ptrAddrs_cons_some, List.mem_cons] at ha
        rcases ha with rfl | ha
        · exact Heap.read_lt_length (show h.read a = some q by simpa [ptVal] using hl.1)
        · exact ih hl.2 a ha

theorem nodup_mid {A B : List Addr} {da : Addr} (hnd : (A ++ da :: B).Nodup) :
    (A ++ B).Nodup ∧ da ∉ A ∧ da ∉ B := by
  simp only [List.nodup_append, List.nodup_cons, List.disjoint_cons_right] at hnd ⊢
  tauto

/-- Splitting the no-double-ownership hypothesis across one loop step. -/
theorem nodup_step {sa da : Addr} {src dst : List Ptr}
    (hnd : (ptrAddrs ((some sa :: src) ++ (some da :: dst))).Nodup) :
    (ptrAddrs (src ++ dst)).Nodup ∧ da ∉ ptrAddrs src ∧ da ∉ ptrAddrs dst ∧
      (ptrAddrs (src ++ (some da :: dst))).Nodup ∧ sa ∉ ptrAddrs dst ∧
      sa ≠ da ∧ sa ∉ ptrAddrs src := by
  simp only [List.cons_append, ptrAddrs_cons_some, ptrAddrs_append] at hnd
  rw [List.nodup_cons] at hnd
  obtain ⟨hsaMem, hrest⟩ := hnd
  obtain ⟨h1, h2, h3⟩ := nodup_mid hrest
  simp only [List.mem_append, List.mem_cons] at hsaMem
  push_neg at hsaMem
  refine ⟨?_, h2, h3, ?_, hsaMem.2.2, hsaMem.2.1, hsaMem.1⟩
  · rw [ptrAddrs_append]; exact h1
  · rw [ptrAddrs_append, ptrAddrs_cons_some]; exact hrest

/- ### Characterization of the filtered and plain copy algorithms -/

/-- `CopyIf` writes exactly the source pointees satisfying `pred`, in
    order, into the pointees of the leading destination slots, leaves the
    destination pointers and the source pointees unchanged, and returns
    the destination start advanced by the match count. -/
theorem CopyIf_spec (pred : α → Bool) :
    ∀ (src : List Ptr) (vs : List α) (dst : List Ptr) (ws : List α) (h : Heap α),
      ptVals h src = vs.map some →
      ptVals h dst = ws.map some →
      (ptrAddrs (src ++ dst)).Nodup →
      src.length ≤ dst.length →
      ∃ h', CopyIf pred h src dst = .ok (h', dst, (vs.filter pred).length) ∧
        ptVals h' (dst.take (vs.filter pred).length) = (vs.filter pred).map some ∧
        ptVals h' src = vs.map some ∧
        (∀ a, a ∉ ptrAddrs dst → h'.read a = h.read a) := by
  intro src
  induction src with
  | nil =>
    intro vs dst ws h hs hd hnd hlen
    cases vs with
    | nil => exact ⟨h, by simp [CopyIf], by simp, by simp, fun a _ => rfl⟩
    | cons v vs => simp at hs
  | cons s src ih =>
    intro vs dst ws h hs hd hnd hlen
    cases vs with
    | nil => simp at hs
    | cons v vs =>
    cases dst with
    | nil => simp at hlen
    | cons d dst =>
    cases ws with
    | nil => simp at hd
    | cons w ws =>
    simp only [ptVals_cons, List.map_cons, List.cons.injEq] at hs hd
    obtain ⟨hsv, hs⟩ := hs
    obtain ⟨hdw, hd⟩ := hd
    obtain ⟨sa, rfl, hsalt⟩ := ptVal_lt_length hsv
    obtain ⟨da, rfl, hdalt⟩ := ptVal_lt_length hdw
    rw [show ptVal h (some sa) = h.read sa from rfl] at hsv
    rw [show ptVal h (some da) = h.read da from rfl] at hdw
    obtain ⟨hnd', hdaS, hdaD, hndE, hsaD, hsada, hsaS⟩ := nodup_step hnd
    by_cases hp : pred v
    · -- matched: write through d, advance dest
      have hw : writePtr h (some da) v = .ok (h.write da v) := by
        simp [writePtr, hdw]
      have hs1 : ptVals (h.write da v) src = vs.map some := by
        rw [ptVals_write_notMem v hdaS]; exact hs
      have hd1 : ptVals (h.write da v) dst = ws.map some := by
        rw [ptVals_write_notMem v hdaD]; exact hd
      obtain ⟨h', heq, hpre, hsrc, hframe⟩ :=
        ih vs dst ws (h.write da v) hs1 hd1 hnd' (Nat.le_of_succ_le_succ hlen)
      have hfilter : List.filter pred (v :: vs) = v :: List.filter pred vs :=
        List.filter_cons_of_pos hp
      refine ⟨h', ?_, ?_, ?_, ?_⟩
      · simp only [CopyIf, cassert_some, exc_bind_ok, readPtr, ptVal, Option.some_bind,
          hsv, hp, if_true, hw, heq, hfilter, List.length_cons]
      · rw [hfilter]
        simp only [List.length_cons, List.take_succ_cons, ptVals_cons, List.map_cons,
          List.cons.injEq]
        refine ⟨?_, hpre⟩
        show h'.read da = some v
        rw [hframe da hdaD]
        exact Heap.read_write_self v hdw
      · simp only [ptVals_cons, List.map_cons, List.cons.injEq]
        refine ⟨?_, hsrc⟩
        show h'.read sa = some v
        rw [hframe sa hsaD, Heap.read_write_ne h v (Ne.symm hsada)]
        exact hsv
      · intro a ha
        simp only [ptrAddrs_cons_some, List.mem_cons] at ha
        push_neg at ha
        rw [hframe a ha.2, Heap.read_write_ne h v (fun he => ha.1 he.symm)]
    · -- not matched: dest not advanced
      have hdfull : ptVals h (some da :: dst) = (w :: ws).map some := by
        simp only [ptVals_cons, List.map_cons, List.cons.injEq]
        exact ⟨hdw, hd⟩
      obtain ⟨h', heq, hpre, hsrc, hframe⟩ :=
        ih vs (some da :: dst) (w :: ws) h hs hdfull hndE
          (Nat.le_succ_of_le (Nat.le_of_succ_le_succ hlen))
      have hfilter : List.filter pred (v :: vs) = List.filter pred vs :=
        List.filter_cons_of_neg (by simpa using hp)
      refine ⟨h', ?_, ?_, ?_, ?_⟩
      · simp only [CopyIf, cassert_some, exc_bind_ok, readPtr, ptVal, Option.some_bind,
          hsv, hp, if_false, heq, hfilter, Bool.false_eq_true]
      · rw [hfilter]; exact hpre
      · simp only [ptVals_cons, List.map_cons, List.cons.injEq]
        refine ⟨?_, hsrc⟩
        show h'.read sa = some v
        rw [hframe sa (by simp [hsada, hsaD])]
        exact hsv
      · intro a ha
        exact hframe a ha

/-- `Copy` writes every source pointee, in order, into the pointees of
    the leading destination slots, leaves destination pointers and source
    pointees unchanged, and advances the destination by the source
    length. -/
theorem Copy_spec :
    ∀ (src : List Ptr) (vs : List α) (dst : List Ptr) (ws : List α) (h : Heap α),
      ptVals h src = vs.map some →
      ptVals h dst = ws.map some →
      (ptrAddrs (src ++ dst)).Nodup →
      src.length ≤ dst.length →
      ∃ h', Copy h src dst = .ok (h', dst, src.length) ∧
        ptVals h' (dst.take src.length) = vs.map some ∧
        ptVals h' src = vs.map some ∧
        (∀ a, a ∉ ptrAddrs dst → h'.read a = h.read a) := by
  intro src
  induction src with
  | nil =>
    intro vs dst ws h hs hd hnd hlen
    cases vs with
    | nil => exact ⟨h, by simp [Copy], by simp, by simp, fun a _ => rfl⟩
    | cons v vs => simp at hs
  | cons s src ih =>
    intro vs dst ws h hs hd hnd hlen
    cases vs with
    | nil => simp at hs
    | cons v vs =>
    cases dst with
    | nil => simp at hlen
    | cons d dst =>
    cases ws with
    | nil => simp at hd
    | cons w ws =>
    simp only [ptVals_cons, List.map_cons, List.cons.injEq] at hs hd
    obtain ⟨hsv, hs⟩ := hs
    obtain ⟨hdw, hd⟩ := hd
    obtain ⟨sa, rfl, hsalt⟩ := ptVal_lt_length hsv
    obtain ⟨da, rfl, hdalt⟩ := ptVal_lt_length hdw
    rw [show ptVal h (some sa) = h.read sa from rfl] at hsv
    rw [show ptVal h (some da) = h.read da from rfl] at hdw
    obtain ⟨hnd', hdaS, hdaD, hndE, hsaD, hsada, hsaS⟩ := nodup_step hnd
    have hw : writePtr h (some da) v = .ok (h.write da v) := by simp [writePtr, hdw]
    have hs1 : ptVals (h.write da v) src = vs.map some := by
      rw [ptVals_write_notMem v hdaS]; exact hs
    have hd1 : ptVals (h.write da v) dst = ws.map some := by
      rw [ptVals_write_notMem v hdaD]; exact hd
    obtain ⟨h', heq, hpre, hsrc, hframe⟩ :=
      ih vs dst ws (h.write da v) hs1 hd1 hnd' (Nat.le_of_succ_le_succ hlen)
    refine ⟨h', ?_, ?_, ?_, ?_⟩
    · simp only [Copy, cassert_some, exc_bind_ok, readPtr, ptVal, Option.some_bind,
        hsv, hw, heq, List.length_cons]
    · simp only [List.length_cons, List.take_succ_cons, ptVals_cons, List.map_cons,
        List.cons.injEq]
      refine ⟨?_, hpre⟩
      show h'.read da = some v
      rw [hframe da hdaD]
      exact Heap.read_write_self v hdw
    · simp only [ptVals_cons, List.map_cons, List.cons.injEq]
      refine ⟨?_, hsrc⟩
      show h'.read sa = some v
      rw [hframe sa hsaD, Heap.read_write_ne h v (Ne.symm hsada)]
      exact hsv
    · intro a ha
      simp only [ptrAddrs_cons_some, List.mem_cons] at ha
      push_neg at ha
      rw [hframe a ha.2, Heap.read_write_ne h v (fun he => ha.1 he.symm)]

/-- `ReplaceCopy` behaves like `Copy` at the value level: the destination
    pointee is destroyed and reconstructed in the same storage, so the
    destination pointers are unchanged and the pointees take the source
    values. -/
theorem ReplaceCopy_spec :
    ∀ (src : List Ptr) (vs : List α) (dst : List Ptr) (ws : List α) (h : Heap α),
      ptVals h src = vs.map some →
      ptVals h dst = ws.map some →
      (ptrAddrs (src ++ dst)).Nodup →
      src.length ≤ dst.length →
      ∃ h', ReplaceCopy h src dst = .ok (h', dst, src.length) ∧
        ptVals h' (dst.take src.length) = vs.map some ∧
        ptVals h' src = vs.map some ∧
        (∀ a, a ∉ ptrAddrs dst → h'.read a = h.read a) := by
  intro src
  induction src with
  | nil =>
    intro vs dst ws h hs hd hnd hlen
    cases vs with
    | nil => exact ⟨h, by simp [ReplaceCopy], by simp, by simp, fun a _ => rfl⟩
    | cons v vs => simp at hs
  | cons s src ih =>
    intro vs dst ws h hs hd hnd hlen
    cases vs with
    | nil => simp at hs
    | cons v vs =>
    cases dst with
    | nil => simp at hlen
    | cons d dst =>
    cases ws with
    | nil => simp at hd
    | cons w ws =>
    simp only [ptVals_cons, List.map_cons, List.cons.injEq] at hs hd
    obtain ⟨hsv, hs⟩ := hs
    obtain ⟨hdw, hd⟩ := hd
    obtain ⟨sa, rfl, hsalt⟩ := ptVal_lt_length hsv
    obtain ⟨da, rfl, hdalt⟩ := ptVal_lt_length hdw
    rw [show ptVal h (some sa) = h.read sa from rfl] at hsv
    rw [show ptVal h (some da) = h.read da from rfl] at hdw
    obtain ⟨hnd', hdaS, hdaD, hndE, hsaD, hsada, hsaS⟩ := nodup_step hnd
    have hw : writePtr h (some da) v = .ok (h.write da v) := by simp [writePtr, hdw]
    have hs1 : ptVals (h.write da v) src = vs.map some := by
      rw [ptVals_write_notMem v hdaS]; exact hs
    have hd1 : ptVals (h.write da v) dst = ws.map some := by
      rw [ptVals_write_notMem v hdaD]; exact hd
    obtain ⟨h', heq, hpre, hsrc, hframe⟩ :=
      ih vs dst ws (h.write da v) hs1 hd1 hnd' (Nat.le_of_succ_le_succ hlen)
    refine ⟨h', ?_, ?_, ?_, ?_⟩
    · simp only [ReplaceCopy, cassert_some, exc_bind_ok, readPtr, ptVal, Option.some_bind,
        hsv, hw, heq, List.length_cons]
    · simp only [List.length_cons, List.take_succ_cons, ptVals_cons, List.map_cons,
        List.cons.injEq]
      refine ⟨?_, hpre⟩
      show h'.read da = some v
      rw [hframe da hdaD]
      exact Heap.read_write_self v hdw
    · simp only [ptVals_cons, List.map_cons, List.cons.injEq]
      refine ⟨?_, hsrc⟩
      show h'.read sa = some v
      rw [hframe sa hsaD, Heap.read_write_ne h v (Ne.symm hsada)]
      exact hsv
    · intro a ha
      simp only [ptrAddrs_cons_some, List.mem_cons] at ha
      push_neg at ha
      rw [hframe a ha.2, Heap.read_write_ne h v (fun he => ha.1 he.symm)]

/-- `ReplaceCopyIf` replaces exactly the pointees of the leading
    destination slots with the source pointees satisfying `pred`, in
    order; destination pointers stay unchanged and the destination
    advances only on a performed replacement. -/
theorem ReplaceCopyIf_spec (pred : α → Bool) :
    ∀ (src : List Ptr) (vs : List α) (dst : List Ptr) (ws : List α) (h : Heap α),
      ptVals h src = vs.map some →
      ptVals h dst = ws.map some →
      (ptrAddrs (src ++ dst)).Nodup →
      src.length ≤ dst.length →
      ∃ h', ReplaceCopyIf pred h src dst = .ok (h', dst, (vs.filter pred).length) ∧
        ptVals h' (dst.take (vs.filter pred).length) = (vs.filter pred).map some ∧
        ptVals h' src = vs.map some ∧
        (∀ a, a ∉ ptrAddrs dst → h'.read a = h.read a) := by
  intro src
  induction src with
  | nil =>
    intro vs dst ws h hs hd hnd hlen
    cases vs with
    | nil => exact ⟨h, by simp [ReplaceCopyIf], by simp, by simp, fun a _ => rfl⟩
    | cons v vs => simp at hs
  | cons s src ih =>
    intro vs dst ws h hs hd hnd hlen
    cases vs with
    | nil => simp at hs
    | cons v vs =>
    cases dst with
    | nil => simp at hlen
    | cons d dst =>
    cases ws with
    | nil => simp at hd
    | cons w ws =>
    simp only [ptVals_cons, List.map_cons, List.cons.injEq] at hs hd
    obtain ⟨hsv, hs⟩ := hs
    obtain ⟨hdw, hd⟩ := hd
    obtain ⟨sa, rfl, hsalt⟩ := ptVal_lt_length hsv
    obtain ⟨da, rfl, hdalt⟩ := ptVal_lt_length hdw
    rw [show ptVal h (some sa) = h.read sa from rfl] at hsv
    rw [show ptVal h (some da) = h.read da from rfl] at hdw
    obtain ⟨hnd', hdaS, hdaD, hndE, hsaD, hsada, hsaS⟩ := nodup_step hnd
    by_cases hp : pred v
    · have hw : writePtr h (some da) v = .ok (h.write da v) := by
        simp [writePtr, hdw]
      have hs1 : ptVals (h.write da v) src = vs.map some := by
        rw [ptVals_write_notMem v hdaS]; exact hs
      have hd1 : ptVals (h.write da v) dst = ws.map some := by
        rw [ptVals_write_notMem v hdaD]; exact hd
      obtain ⟨h', heq, hpre, hsrc, hframe⟩ :=
        ih vs dst ws (h.write da v) hs1 hd1 hnd' (Nat.le_of_succ_le_succ hlen)
      have hfilter : List.filter pred (v :: vs) = v :: List.filter pred vs :=
        List.filter_cons_of_pos hp
      refine ⟨h', ?_, ?_, ?_, ?_⟩
      · simp only [ReplaceCopyIf, cassert_some, exc_bind_ok, readPtr, ptVal, Option.some_bind,
          hsv, hp, if_true, hw, heq, hfilter, List.length_cons]
      · rw [hfilter]
        simp only [List.length_cons, List.take_succ_cons, ptVals_cons, List.map_cons,
          List.cons.injEq]
        refine ⟨?_, hpre⟩
        show h'.read da = some v
        rw [hframe da hdaD]
        exact Heap.read_write_self v hdw
      · simp only [ptVals_cons, List.map_cons, List.cons.injEq]
        refine ⟨?_, hsrc⟩
        show h'.read sa = some v
        rw [hframe sa hsaD, Heap.read_write_ne h v (Ne.symm hsada)]
        exact hsv
      · intro a ha
        simp only [ptrAddrs_cons_some, List.mem_cons] at ha
        push_neg at ha
        rw [hframe a ha.2, Heap.read_write_ne h v (fun he => ha.1 he.symm)]
    · have hdfull : ptVals h (some da :: dst) = (w :: ws).map some := by
        simp only [ptVals_cons, List.map_cons, List.cons.injEq]
        exact ⟨hdw, hd⟩
      obtain ⟨h', heq, hpre, hsrc, hframe⟩ :=
        ih vs (some da :: dst) (w :: ws) h hs hdfull hndE
          (Nat.le_succ_of_le (Nat.le_of_succ_le_succ hlen))
      have hfilter : List.filter pred (v :: vs) = List.filter pred vs :=
        List.filter_cons_of_neg (by simpa using hp)
      refine ⟨h', ?_, ?_, ?_, ?_⟩
      · simp only [ReplaceCopyIf, cassert_some, exc_bind_ok, readPtr, ptVal, Option.some_bind,
          hsv, hp, if_false, heq, hfilter, Bool.false_eq_true]
      · rw [hfilter]; exact hpre
      · simp only [ptVals_cons, List.map_cons, List.cons.injEq]
        refine ⟨?_, hsrc⟩
        show h'.read sa = some v
        rw [hframe sa (by simp [hsada, hsaD])]
        exact hsv
      · intro a ha
        exact hframe a ha

/- ### Characterization of the clone algorithms -/

theorem alloc_store_length (h : Heap α) (v : α) :
    (h.alloc v).2.store.length = h.store.length + 1 := by
  simp [Heap.alloc]

theorem Heap.read_alloc_lt {h : Heap α} {a : Addr} (v : α) (ha : a < h.store.length) :
    (h.alloc v).2.read a = h.read a := by
  show (h.store ++ [some v]).getD a none = h.store.getD a none
  exact getD_append_left _ _ ha

theorem fresh_range_shift (base n : Nat) :
    (List.range (n + 1)).map (fun i => (some (base + i) : Ptr)) =
      some base :: (List.range n).map (fun i => (some (base + 1 + i) : Ptr)) := by
  rw [List.range_succ_eq_map, List.map_cons, List.map_map]
  refine congrArg₂ _ (by simp) (List.map_congr_left ?_)
  intro a _
  show some (base + (a + 1)) = some (base + 1 + a)
  exact congrArg some (by omega)

/-- `Clone` overwrites each leading destination slot with a fresh,
    pairwise-distinct pointer (allocated past every existing address)
    whose pointee equals the corresponding source pointee; source and
    pre-existing objects are untouched and nothing is freed. -/
theorem Clone_spec :
    ∀ (src : List Ptr) (vs : List α) (dst : List Ptr) (ws : List α) (h : Heap α),
      ptVals h src = vs.map some →
      ptVals h dst = ws.map some →
      src.length ≤ dst.length →
      ∃ h', Clone h src dst =
          .ok (h', (List.range src.length).map (fun i => (some (h.store.length + i) : Ptr))
                ++ dst.drop src.length, src.length) ∧
        ptVals h' ((List.range src.length).map fun i => (some (h.store.length + i) : Ptr))
          = vs.map some ∧
        ptVals h' src = vs.map some ∧
        ptVals h' dst = ws.map some ∧
        h'.store.length = h.store.length + src.length ∧
        h'.freed = h.freed ∧
        (∀ a, a < h.store.length → h'.read a = h.read a) := by
  intro src
  induction src with
  | nil =>
    intro vs dst ws h hs hd hlen
    cases vs with
    | nil => exact ⟨h, by simp [Clone], by simp, by simp, hd, by simp, rfl, fun a _ => rfl⟩
    | cons v vs => simp at hs
  | cons s src ih =>
    intro vs dst ws h hs hd hlen
    cases vs with
    | nil => simp at hs
    | cons v vs =>
    cases dst with
    | nil => simp at hlen
    | cons d dst =>
    cases ws with
    | nil => simp at hd
    | cons w ws =>
    simp only [ptVals_cons, List.map_cons, List.cons.injEq] at hs hd
    obtain ⟨hsv, hs⟩ := hs
    obtain ⟨hdw, hd⟩ := hd
    obtain ⟨sa, rfl, hsalt⟩ := ptVal_lt_length hsv
    obtain ⟨da, rfl, hdalt⟩ := ptVal_lt_length hdw
    rw [show ptVal h (some sa) = h.read sa from rfl] at hsv
    rw [show ptVal h (some da) = h.read da from rfl] at hdw
    have hs1 : ptVals (h.alloc v).2 src = vs.map some := ptVals_alloc v hs
    have hd1 : ptVals (h.alloc v).2 dst = ws.map some := ptVals_alloc v hd
    obtain ⟨h', heq, hfresh, hsrc, hdst, hsl, hfreed, hframe⟩ :=
      ih vs dst ws (h.alloc v).2 hs1 hd1 (Nat.le_of_succ_le_succ hlen)
    have hlen1 : (h.alloc v).2.store.length = h.store.length + 1 := alloc_store_length h v
    simp only [hlen1] at hfresh heq hsl hframe
    refine ⟨h', ?_, ?_, ?_, ?_, ?_, ?_, ?_⟩
    · simp only [Clone, cassert_some, exc_bind_ok, readPtr, ptVal, Option.some_bind, hsv]
      rw [show h.alloc v = (h.store.length, (h.alloc v).2) from rfl]
      dsimp only
      simp only [heq, exc_bind_ok, List.length_cons, fresh_range_shift,
        List.drop_succ_cons, List.cons_append]
    · simp only [List.length_cons, fresh_range_shift, ptVals_cons, List.map_cons,
        List.cons.injEq]
      refine ⟨?_, hfresh⟩
      show h'.read h.store.length = some v
      rw [hframe h.store.length (Nat.lt_succ_self _)]
      exact Heap.read_alloc_fresh h v
    · simp only [ptVals_cons, List.map_cons, List.cons.injEq]
      refine ⟨?_, hsrc⟩
      show h'.read sa = some v
      rw [hframe sa (Nat.lt_succ_of_lt hsalt), Heap.read_alloc_lt v hsalt]
      exact hsv
    · simp only [ptVals_cons, List.map_cons, List.cons.injEq]
      refine ⟨?_, hdst⟩
      show h'.read da = some w
      rw [hframe da (Nat.lt_succ_of_lt hdalt), Heap.read_alloc_lt v hdalt]
      exact hdw
    · simp only [List.length_cons]; omega
    · exact hfreed
    · intro a ha
      rw [hframe a (Nat.lt_succ_of_lt ha), Heap.read_alloc_lt v ha]

/-- `CloneIf` writes a fresh pointer (cloning the source pointee) into
    the next destination slot exactly when `pred` holds of the source
    pointee; the destination advances only then, and the clones appear in
    original relative order. -/
theorem CloneIf_spec (pred : α → Bool) :
    ∀ (src : List Ptr) (vs : List α) (dst : List Ptr) (ws : List α) (h : Heap α),
      ptVals h src = vs.map some →
      ptVals h dst = ws.map some →
      src.length ≤ dst.length →
      ∃ h', CloneIf pred h src dst =
          .ok (h', (List.range (vs.filter pred).length).map
                  (fun i => (some (h.store.length + i) : Ptr))
                ++ dst.drop (vs.filter pred).length, (vs.filter pred).length) ∧
        ptVals h' ((List.range (vs.filter pred).length).map
            fun i => (some (h.store.length + i) : Ptr)) = (vs.filter pred).map some ∧
        ptVals h' src = vs.map some ∧
        ptVals h' dst = ws.map some ∧
        h'.store.length = h.store.length + (vs.filter pred).length ∧
        h'.freed = h.freed ∧
        (∀ a, a < h.store.length → h'.read a = h.read a) := by
  intro src
  induction src with
  | nil =>
    intro vs dst ws h hs hd hlen
    cases vs with
    | nil => exact ⟨h, by simp [CloneIf], by simp, by simp, hd, by simp, rfl, fun a _ => rfl⟩
    | cons v vs => simp at hs
  | cons s src ih =>
    intro vs dst ws h hs hd hlen
    cases vs with
    | nil => simp at hs
    | cons v vs =>
    cases dst with
    | nil => simp at hlen
    | cons d dst =>
    cases ws with
    | nil => simp at hd
    | cons w ws =>
    simp only [ptVals_cons, List.map_cons, List.cons.injEq] at hs hd
    obtain ⟨hsv, hs⟩ := hs
    obtain ⟨hdw, hd⟩ := hd
    obtain ⟨sa, rfl, hsalt⟩ := ptVal_lt_length hsv
    obtain ⟨da, rfl, hdalt⟩ := ptVal_lt_length hdw
    rw [show ptVal h (some sa) = h.read sa from rfl] at hsv
    rw [show ptVal h (some da) = h.read da from rfl] at hdw
    by_cases hp : pred v
    · have hs1 : ptVals (h.alloc v).2 src = vs.map some := ptVals_alloc v hs
      have hd1 : ptVals (h.alloc v).2 dst = ws.map some := ptVals_alloc v hd
      obtain ⟨h', heq, hfresh, hsrc, hdst, hsl, hfreed, hframe⟩ :=
        ih vs dst ws (h.alloc v).2 hs1 hd1 (Nat.le_of_succ_le_succ hlen)
      have hlen1 : (h.alloc v).2.store.length = h.store.length + 1 := alloc_store_length h v
      simp only [hlen1] at hfresh heq hsl hframe
      have hfilter : List.filter pred (v :: vs) = v :: List.filter pred vs :=
        List.filter_cons_of_pos hp
      refine ⟨h', ?_, ?_, ?_, ?_, ?_, ?_, ?_⟩
      · simp only [CloneIf, cassert_some, exc_bind_ok, readPtr, ptVal, Option.some_bind,
          hsv, hp, if_true]
        rw [show h.alloc v = (h.store.length, (h.alloc v).2) from rfl]
        dsimp only
        simp only [heq, exc_bind_ok, hfilter, List.length_cons, fresh_range_shift,
          List.drop_succ_cons, List.cons_append]
      · simp only [hfilter, List.length_cons, fresh_range_shift, ptVals_cons,
          List.map_cons, List.cons.injEq]
        refine ⟨?_, hfresh⟩
        show h'.read h.store.length = some v
        rw [hframe h.store.length (Nat.lt_succ_self _)]
        exact Heap.read_alloc_fresh h v
      · simp only [ptVals_cons, List.map_cons, List.cons.injEq]
        refine ⟨?_, hsrc⟩
        show h'.read sa = some v
        rw [hframe sa (Nat.lt_succ_of_lt hsalt), Heap.read_alloc_lt v hsalt]
        exact hsv
      · simp only [ptVals_cons, List.map_cons, List.cons.injEq]
        refine ⟨?_, hdst⟩
        show h'.read da = some w
        rw [hframe da (Nat.lt_succ_of_lt hdalt), Heap.read_alloc_lt v hdalt]
        exact hdw
      · simp only [hfilter, List.length_cons]; omega
      · exact hfreed
      · intro a ha
        rw [hframe a (Nat.lt_succ_of_lt ha), Heap.read_alloc_lt v ha]
    · have hdfull : ptVals h (some da :: dst) = (w :: ws).map some := by
        simp only [ptVals_cons, List.map_cons, List.cons.injEq]
        exact ⟨hdw, hd⟩
      obtain ⟨h', heq, hfresh, hsrc, hdst, hsl, hfreed, hframe⟩ :=
        ih vs (some da :: dst) (w :: ws) h hs hdfull
          (Nat.le_succ_of_le (Nat.le_of_succ_le_succ hlen))
      have hfilter : List.filter pred (v :: vs) = List.filter pred vs :=
        List.filter_cons_of_neg (by simpa using hp)
      refine ⟨h', ?_, ?_, ?_, ?_, ?_, ?_, ?_⟩
      · simp only [CloneIf, cassert_some, exc_bind_ok, readPtr, ptVal, Option.some_bind,
          hsv, hp, if_false, heq, hfilter, Bool.false_eq_true]
      · rw [hfilter]; exact hfresh
      · simp only [ptVals_cons, List.map_cons, List.cons.injEq]
        refine ⟨?_, hsrc⟩
        show h'.read sa = some v
        rw [hframe sa hsalt]
        exact hsv
      · exact hdst
      · rw [hfilter]; exact hsl
      · exact hfreed
      · intro a ha
        exact hframe a ha

theorem delete_store_length (h : Heap α) (p : Ptr) :
    (deletePtr h p).store.length = h.store.length := by
  cases p <;> simp [deletePtr]

/-- `ReplaceClone` deletes every leading destination pointer and
    overwrites its slot with a fresh, pairwise-distinct pointer whose
    pointee equals the corresponding source pointee; source pointees and
    unrelated objects are untouched. -/
theorem ReplaceClone_spec :
    ∀ (src : List Ptr) (vs : List α) (dst : List Ptr) (ws : List α) (h : Heap α),
      ptVals h src = vs.map some →
      ptVals h dst = ws.map some →
      (ptrAddrs (src ++ dst)).Nodup →
      src.length ≤ dst.length →
      ∃ h', ReplaceClone h src dst =
          .ok (h', (List.range src.length).map (fun i => (some (h.store.length + i) : Ptr))
                ++ dst.drop src.length, src.length) ∧
        ptVals h' ((List.range src.length).map fun i => (some (h.store.length + i) : Ptr))
          = vs.map some ∧
        ptVals h' src = vs.map some ∧
        h'.store.length = h.store.length + src.length ∧
        (∀ a, a < h.store.length → a ∉ ptrAddrs dst → h'.read a = h.read a) := by
  intro src
  induction src with
  | nil =>
    intro vs dst ws h hs hd hnd hlen
    cases vs with
    | nil => exact ⟨h, by simp [ReplaceClone], by simp, by simp, rfl, fun a _ _ => rfl⟩
    | cons v vs => simp at hs
  | cons s src ih =>
    intro vs dst ws h hs hd hnd hlen
    cases vs with
    | nil => simp at hs
    | cons v vs =>
    cases dst with
    | nil => simp at hlen
    | cons d dst =>
    cases ws with
    | nil => simp at hd
    | cons w ws =>
    simp only [ptVals_cons, List.map_cons, List.cons.injEq] at hs hd
    obtain ⟨hsv, hs⟩ := hs
    obtain ⟨hdw, hd⟩ := hd
    obtain ⟨sa, rfl, hsalt⟩ := ptVal_lt_length hsv
    obtain ⟨da, rfl, hdalt⟩ := ptVal_lt_length hdw
    rw [show ptVal h (some sa) = h.read sa from rfl] at hsv
    rw [show ptVal h (some da) = h.read da from rfl] at hdw
    obtain ⟨hnd', hdaS, hdaD, hndE, hsaD, hsada, hsaS⟩ := nodup_step hnd
    -- the state after `delete(*dest)` and the clone allocation
    have hread1 : (deletePtr h (some da)).read sa = some v := by
      rw [read_delete_ne h (Ne.symm hsada)]; exact hsv
    have hdl : (deletePtr h (some da)).store.length = h.store.length :=
      delete_store_length h (some da)
    have hs0 : ptVals (deletePtr h (some da)) src = vs.map some := by
      rw [ptVals_delete_notMem hdaS]; exact hs
    have hd0 : ptVals (deletePtr h (some da)) dst = ws.map some := by
      rw [ptVals_delete_notMem hdaD]; exact hd
    have hs1 : ptVals ((deletePtr h (some da)).alloc v).2 src = vs.map some :=
      ptVals_alloc v hs0
    have hd1 : ptVals ((deletePtr h (some da)).alloc v).2 dst = ws.map some :=
      ptVals_alloc v hd0
    obtain ⟨h', heq, hfresh, hsrc, hsl, hframe⟩ :=
      ih vs dst ws ((deletePtr h (some da)).alloc v).2 hs1 hd1 hnd'
        (Nat.le_of_succ_le_succ hlen)
    have hlen1 : ((deletePtr h (some da)).alloc v).2.store.length = h.store.length + 1 := by
      rw [alloc_store_length, hdl]
    simp only [hlen1, hdl] at hfresh heq hsl hframe
    have hdstlt : ∀ b ∈ ptrAddrs dst, b < h.store.length := addr_lt_of_live hd
    refine ⟨h', ?_, ?_, ?_, ?_, ?_⟩
    · simp only [ReplaceClone, cassert_some, exc_bind_ok, readPtr, ptVal, Option.some_bind,
        hread1]
      rw [show (deletePtr h (some da)).alloc v =
        ((deletePtr h (some da)).store.length, ((deletePtr h (some da)).alloc v).2) from rfl]
      dsimp only
      simp only [hdl, heq, exc_bind_ok, List.length_cons, fresh_range_shift,
        List.drop_succ_cons, List.cons_append]
    · simp only [List.length_cons, fresh_range_shift, ptVals_cons, List.map_cons,
        List.cons.injEq]
      refine ⟨?_, hfresh⟩
      show h'.read h.store.length = some v
      rw [hframe h.store.length (Nat.lt_succ_self _)
        (fun hmem => absurd (hdstlt _ hmem) (lt_irrefl _))]
      have := Heap.read_alloc_fresh (deletePtr h (some da)) v
      rw [hdl] at this
      exact this
    · simp only [ptVals_cons, List.map_cons, List.cons.injEq]
      refine ⟨?_, hsrc⟩
      show h'.read sa = some v
      rw [hframe sa (Nat.lt_succ_of_lt hsalt) hsaD, Heap.read_alloc_lt v (by rwa [hdl])]
      exact hread1
    · simp only [List.length_cons]; omega
    · intro a ha hamem
      simp only [ptrAddrs_cons_some, List.mem_cons] at hamem
      push_neg at hamem
      rw [hframe a (Nat.lt_succ_of_lt ha) hamem.2,
        Heap.read_alloc_lt v (by rwa [hdl]), read_delete_ne h (fun he => hamem.1 he.symm)]

/-- `ReplaceCloneIf` deletes the next destination pointer and overwrites
    its slot with a fresh clone exactly when `pred` holds of the source
    pointee; the destination advances only then. -/
theorem ReplaceCloneIf_spec (pred : α → Bool) :
    ∀ (src : List Ptr) (vs : List α) (dst : List Ptr) (ws : List α) (h : Heap α),
      ptVals h src = vs.map some →
      ptVals h dst = ws.map some →
      (ptrAddrs (src ++ dst)).Nodup →
      src.length ≤ dst.length →
      ∃ h', ReplaceCloneIf pred h src dst =
          .ok (h', (List.range (vs.filter pred).length).map
                  (fun i => (some (h.store.length + i) : Ptr))
                ++ dst.drop (vs.filter pred).length, (vs.filter pred).length) ∧
        ptVals h' ((List.range (vs.filter pred).length).map
            fun i => (some (h.store.length + i) : Ptr)) = (vs.filter pred).map some ∧
        ptVals h' src = vs.map some ∧
        h'.store.length = h.store.length + (vs.filter pred).length ∧
        (∀ a, a < h.store.length → a ∉ ptrAddrs dst → h'.read a = h.read a) := by
  intro src
  induction src with
  | nil =>
    intro vs dst ws h hs hd hnd hlen
    cases vs with
    | nil => exact ⟨h, by simp [ReplaceCloneIf], by simp, by simp, rfl, fun a _ _ => rfl⟩
    | cons v vs => simp at hs
  | cons s src ih =>
    intro vs dst ws h hs hd hnd hlen
    cases vs with
    | nil => simp at hs
    | cons v vs =>
    cases dst with
    | nil => simp at hlen
    | cons d dst =>
    cases ws with
    | nil => simp at hd
    | cons w ws =>
    simp only [ptVals_cons, List.map_cons, List.cons.injEq] at hs hd
    obtain ⟨hsv, hs⟩ := hs
    obtain ⟨hdw, hd⟩ := hd
    obtain ⟨sa, rfl, hsalt⟩ := ptVal_lt_length hsv
    obtain ⟨da, rfl, hdalt⟩ := ptVal_lt_length hdw
    rw [show ptVal h (some sa) = h.read sa from rfl] at hsv
    rw [show ptVal h (some da) = h.read da from rfl] at hdw
    obtain ⟨hnd', hdaS, hdaD, hndE, hsaD, hsada, hsaS⟩ := nodup_step hnd
    by_cases hp : pred v
    · have hread1 : (deletePtr h (some da)).read sa = some v := by
        rw [read_delete_ne h (Ne.symm hsada)]; exact hsv
      have hdl : (deletePtr h (some da)).store.length = h.store.length :=
        delete_store_length h (some da)
      have hs0 : ptVals (deletePtr h (some da)) src = vs.map some := by
        rw [ptVals_delete_notMem hdaS]; exact hs
      have hd0 : ptVals (deletePtr h (some da)) dst = ws.map some := by
        rw [ptVals_delete_notMem hdaD]; exact hd
      have hs1 : ptVals ((deletePtr h (some da)).alloc v).2 src = vs.map some :=
        ptVals_alloc v hs0
      have hd1 : ptVals ((deletePtr h (some da)).alloc v).2 dst = ws.map some :=
        ptVals_alloc v hd0
      obtain ⟨h', heq, hfresh, hsrc, hsl, hframe⟩ :=
        ih vs dst ws ((deletePtr h (some da)).alloc v).2 hs1 hd1 hnd'
          (Nat.le_of_succ_le_succ hlen)
      have hlen1 : ((deletePtr h (some da)).alloc v).2.store.length = h.store.length + 1 := by
        rw [alloc_store_length, hdl]
      simp only [hlen1, hdl] at hfresh heq hsl hframe
      have hdstlt : ∀ b ∈ ptrAddrs dst, b < h.store.length := addr_lt_of_live hd
      have hfilter : List.filter pred (v :: vs) = v :: List.filter pred vs :=
        List.filter_cons_of_pos hp
      refine ⟨h', ?_, ?_, ?_, ?_, ?_⟩
      · simp only [ReplaceCloneIf, cassert_some, exc_bind_ok, readPtr, ptVal,
          Option.some_bind, hsv, hp, if_true, hread1]
        rw [show (deletePtr h (some da)).alloc v =
          ((deletePtr h (some da)).store.length, ((deletePtr h (some da)).alloc v).2) from rfl]
        dsimp only
        simp only [hdl, heq, exc_bind_ok, hfilter, List.length_cons, fresh_range_shift,
          List.drop_succ_cons, List.cons_append]
      · simp only [hfilter, List.length_cons, fresh_range_shift, ptVals_cons,
          List.map_cons, List.cons.injEq]
        refine ⟨?_, hfresh⟩
        show h'.read h.store.length = some v
        rw [hframe h.store.length (Nat.lt_succ_self _)
          (fun hmem => absurd (hdstlt _ hmem) (lt_irrefl _))]
        have := Heap.read_alloc_fresh (deletePtr h (some da)) v
        rw [hdl] at this
        exact this
      · simp only [ptVals_cons, List.map_cons, List.cons.injEq]
        refine ⟨?_, hsrc⟩
        show h'.read sa = some v
        rw [hframe sa (Nat.lt_succ_of_lt hsalt) hsaD, Heap.read_alloc_lt v (by rwa [hdl])]
        exact hread1
      · simp only [hfilter, List.length_cons]; omega
      · intro a ha hamem
        simp only [ptrAddrs_cons_some, List.mem_cons] at hamem
        push_neg at hamem
        rw [hframe a (Nat.lt_succ_of_lt ha) hamem.2,
          Heap.read_alloc_lt v (by rwa [hdl]), read_delete_ne h (fun he => hamem.1 he.symm)]
    · have hdfull : ptVals h (some da :: dst) = (w :: ws).map some := by
        simp only [ptVals_cons, List.map_cons, List.cons.injEq]
        exact ⟨hdw, hd⟩
      obtain ⟨h', heq, hfresh, hsrc, hsl, hframe⟩ :=
        ih vs (some da :: dst) (w :: ws) h hs hdfull hndE
          (Nat.le_succ_of_le (Nat.le_of_succ_le_succ hlen))
      have hfilter : List.filter pred (v :: vs) = List.filter pred vs :=
        List.filter_cons_of_neg (by simpa using hp)
      refine ⟨h', ?_, ?_, ?_, ?_, ?_⟩
      · simp only [ReplaceCloneIf, cassert_some, exc_bind_ok, readPtr, ptVal,
          Option.some_bind, hsv, hp, if_false, heq, hfilter, Bool.false_eq_true]
      · rw [hfilter]; exact hfresh
      · simp only [ptVals_cons, List.map_cons, List.cons.injEq]
        refine ⟨?_, hsrc⟩
        show h'.read sa = some v
        rw [hframe sa hsalt (by simp [hsada, hsaD])]
        exact hsv
      · rw [hfilter]; exact hsl
      · intro a ha hamem
        simp only [ptrAddrs_cons_some, List.mem_cons] at hamem
        push_neg at hamem
        exact hframe a ha (by simp [hamem.1, hamem.2])

/- ### Freshness helpers for the clone results -/

theorem ptrAddrs_fresh (L n : Nat) :
    ptrAddrs ((List.range n).map fun i => (some (L + i) : Ptr)) =
      (List.range n).map (L + ·) := by
  rw [ptrAddrs, List.filterMap_map]
  show List.filterMap (some ∘ fun i => L + i) (List.range n) = _
  rw [List.filterMap_eq_map]

theorem nodup_fresh (L n : Nat) :
    (ptrAddrs ((List.range n).map fun i => (some (L + i) : Ptr))).Nodup := by
  rw [ptrAddrs_fresh]
  exact (List.nodup_range n).map (fun _ _ hab => Nat.add_left_cancel hab)

theorem forall2_ne_fresh {h : Heap α} : ∀ {src : List Ptr} {vs : List α} (L : Nat),
    ptVals h src = vs.map some → h.store.length ≤ L →
    List.Forall₂ (· ≠ ·) ((List.range src.length).map fun i => (some (L + i) : Ptr)) src := by
  intro src
  induction src with
  | nil => intro vs L _ _; simp
  | cons s src ih =>
    intro vs L hs hL
    cases vs with
    | nil => simp at hs
    | cons v vs =>
      simp only [ptVals_cons, List.map_cons, List.cons.injEq] at hs
      obtain ⟨hsv, hs⟩ := hs
      obtain ⟨sa, rfl, hsalt⟩ := ptVal_lt_length hsv
      rw [List.length_cons, fresh_range_shift]
      refine List.Forall₂.cons ?_ (ih (L + 1) hs (Nat.le_succ_of_le hL))
      intro he
      have h1 : L = sa := by simpa using he
      rw [h1] at hL
      exact absurd hsalt (Nat.not_lt.mpr hL)

/- ### Claim theorems: filtered algorithms (C1) and value-vs-identity (C5) -/

/-- Claim C1: for each of `CopyIf`, `CloneIf`, `ReplaceCopyIf` and
    `ReplaceCloneIf` with predicate `pred`, over a range of non-null live
    pointers (no doubly-owned address, destination at least as long as the
    source), the call succeeds, the returned destination iterator is the
    start slot advanced by exactly the number of source elements
    satisfying `pred`, and the pointees of the leading destination slots
    are exactly the satisfying source values in original relative
    order. -/
theorem C1_filter_fidelity (pred : α → Bool) (src dst : List Ptr) (vs ws : List α)
    (h : Heap α)
    (hs : ptVals h src = vs.map some)
    (hd : ptVals h dst = ws.map some)
    (hnd : (ptrAddrs (src ++ dst)).Nodup)
    (hlen : src.length ≤ dst.length) :
    (∃ h' dstOut, CopyIf pred h src dst = .ok (h', dstOut, (vs.filter pred).length) ∧
      ptVals h' (dstOut.take (vs.filter pred).length) = (vs.filter pred).map some) ∧
    (∃ h' dstOut, CloneIf pred h src dst = .ok (h', dstOut, (vs.filter pred).length) ∧
      ptVals h' (dstOut.take (vs.filter pred).length) = (vs.filter pred).map some) ∧
    (∃ h' dstOut, ReplaceCopyIf pred h src dst = .ok (h', dstOut, (vs.filter pred).length) ∧
      ptVals h' (dstOut.take (vs.filter pred).length) = (vs.filter pred).map some) ∧
    (∃ h' dstOut, ReplaceCloneIf pred h src dst = .ok (h', dstOut, (vs.filter pred).length) ∧
      ptVals h' (dstOut.take (vs.filter pred).length) = (vs.filter pred).map some) := by
  have hn : (vs.filter pred).length ≤ vs.length := List.length_filter_le _ _
  have hvs : vs.length = src.length := by
    have := congrArg List.length hs
    simpa [ptVals] using this.symm
  have htake : ∀ (l l' : List Ptr), l.length = (vs.filter pred).length →
      (l ++ l').take (vs.filter pred).length = l := by
    intro l l' hl
    rw [← hl, List.take_left]
  refine ⟨?_, ?_, ?_, ?_⟩
  · obtain ⟨h', heq, hpre, -, -⟩ := CopyIf_spec pred src vs dst ws h hs hd hnd hlen
    exact ⟨h', dst, heq, hpre⟩
  · obtain ⟨h', heq, hfresh, -, -, -, -, -⟩ := CloneIf_spec pred src vs dst ws h hs hd hlen
    refine ⟨h', _, heq, ?_⟩
    rw [htake _ _ (by simp)]
    exact hfresh
  · obtain ⟨h', heq, hpre, -, -⟩ := ReplaceCopyIf_spec pred src vs dst ws h hs hd hnd hlen
    exact ⟨h', dst, heq, hpre⟩
  · obtain ⟨h', heq, hfresh, -, -, -⟩ := ReplaceCloneIf_spec pred src vs dst ws h hs hd hnd hlen
    refine ⟨h', _, heq, ?_⟩
    rw [htake _ _ (by simp)]
    exact hfresh

/-- A concrete test range: source pointees `[1,2,3,4]` at addresses
    `0..3`, destination pointees `[5,5,5,5]` at addresses `4..7`. -/
def heapW : Heap Nat :=
  ⟨[some 1, some 2, some 3, some 4, some 5, some 5, some 5, some 5], []⟩

def srcW : List Ptr := [some 0, some 1, some 2, some 3]

def dstW : List Ptr := [some 4, some 5, some 6, some 7]

def evenW : Nat → Bool := fun v => v % 2 == 0

theorem C1_filter_fidelity_witness :
    (ptVals heapW srcW = [1, 2, 3, 4].map some ∧
      ptVals heapW dstW = [5, 5, 5, 5].map some ∧
      (ptrAddrs (srcW ++ dstW)).Nodup ∧ srcW.length ≤ dstW.length) ∧
    ((∃ h' dstOut, CopyIf evenW heapW srcW dstW =
        .ok (h', dstOut, ([1, 2, 3, 4].filter evenW).length) ∧
      ptVals h' (dstOut.take ([1, 2, 3, 4].filter evenW).length) =
        ([1, 2, 3, 4].filter evenW).map some) ∧
    (∃ h' dstOut, CloneIf evenW heapW srcW dstW =
        .ok (h', dstOut, ([1, 2, 3, 4].filter evenW).length) ∧
      ptVals h' (dstOut.take ([1, 2, 3, 4].filter evenW).length) =
        ([1, 2, 3, 4].filter evenW).map some) ∧
    (∃ h' dstOut, ReplaceCopyIf evenW heapW srcW dstW =
        .ok (h', dstOut, ([1, 2, 3, 4].filter evenW).length) ∧
      ptVals h' (dstOut.take ([1, 2, 3, 4].filter evenW).length) =
        ([1, 2, 3, 4].filter evenW).map some) ∧
    (∃ h' dstOut, ReplaceCloneIf evenW heapW srcW dstW =
        .ok (h', dstOut, ([1, 2, 3, 4].filter evenW).length) ∧
      ptVals h' (dstOut.take ([1, 2, 3, 4].filter evenW).length) =
        ([1, 2, 3, 4].filter evenW).map some)) :=
  ⟨⟨by decide, by decide, by decide, by decide⟩,
    C1_filter_fidelity evenW srcW dstW [1, 2, 3, 4] [5, 5, 5, 5] heapW
      (by decide) (by decide) (by decide) (by decide)⟩

/-- Claim C5: over equal-length ranges of non-null live pointers with no
    doubly-owned address, `Copy` and `ReplaceCopy` return the destination
    slots unchanged (same pointers) with every destination pointee equal
    to the corresponding source pointee, while `Clone` and `ReplaceClone`
    leave every destination pointee equal to the corresponding source
    pointee but through pointers that differ from the corresponding
    source pointers and are pairwise distinct heap addresses. -/
theorem C5_value_vs_identity (src dst : List Ptr) (vs ws : List α) (h : Heap α)
    (hs : ptVals h src = vs.map some)
    (hd : ptVals h dst = ws.map some)
    (hnd : (ptrAddrs (src ++ dst)).Nodup)
    (hlen : dst.length = src.length) :
    (∃ h', Copy h src dst = .ok (h', dst, src.length) ∧
      ptVals h' dst = vs.map some) ∧
    (∃ h', ReplaceCopy h src dst = .ok (h', dst, src.length) ∧
      ptVals h' dst = vs.map some) ∧
    (∃ h' dstOut, Clone h src dst = .ok (h', dstOut, src.length) ∧
      ptVals h' dstOut = vs.map some ∧
      List.Forall₂ (· ≠ ·) dstOut src ∧ (ptrAddrs dstOut).Nodup) ∧
    (∃ h' dstOut, ReplaceClone h src dst = .ok (h', dstOut, src.length) ∧
      ptVals h' dstOut = vs.map some ∧
      List.Forall₂ (· ≠ ·) dstOut src ∧ (ptrAddrs dstOut).Nodup) := by
  have hdrop : dst.drop src.length = [] := by
    rw [← hlen]; exact List.drop_length dst
  refine ⟨?_, ?_, ?_, ?_⟩
  · obtain ⟨h', heq, hpre, -, -⟩ := Copy_spec src vs dst ws h hs hd hnd (le_of_eq hlen.symm)
    refine ⟨h', heq, ?_⟩
    rw [← hlen, List.take_length] at hpre
    exact hpre
  · obtain ⟨h', heq, hpre, -, -⟩ :=
      ReplaceCopy_spec src vs dst ws h hs hd hnd (le_of_eq hlen.symm)
    refine ⟨h', heq, ?_⟩
    rw [← hlen, List.take_length] at hpre
    exact hpre
  · obtain ⟨h', heq, hfresh, -, -, -, -, -⟩ :=
      Clone_spec src vs dst ws h hs hd (le_of_eq hlen.symm)
    rw [hdrop, List.append_nil] at heq
    exact ⟨h', _, heq, hfresh, forall2_ne_fresh h.store.length hs (le_refl _),
      nodup_fresh _ _⟩
  · obtain ⟨h', heq, hfresh, -, -, -⟩ :=
      ReplaceClone_spec src vs dst ws h hs hd hnd (le_of_eq hlen.symm)
    rw [hdrop, List.append_nil] at heq
    exact ⟨h', _, heq, hfresh, forall2_ne_fresh h.store.length hs (le_refl _),
      nodup_fresh _ _⟩

theorem C5_value_vs_identity_witness :
    (ptVals heapW srcW = [1, 2, 3, 4].map some ∧
      ptVals heapW dstW = [5, 5, 5, 5].map some ∧
      (ptrAddrs (srcW ++ dstW)).Nodup ∧ dstW.length = srcW.length) ∧
    ((∃ h', Copy heapW srcW dstW = .ok (h', dstW, srcW.length) ∧
      ptVals h' dstW = [1, 2, 3, 4].map some) ∧
    (∃ h', ReplaceCopy heapW srcW dstW = .ok (h', dstW, srcW.length) ∧
      ptVals h' dstW = [1, 2, 3, 4].map some) ∧
    (∃ h' dstOut, Clone heapW srcW dstW = .ok (h', dstOut, srcW.length) ∧
      ptVals h' dstOut = [1, 2, 3, 4].map some ∧
      List.Forall₂ (· ≠ ·) dstOut srcW ∧ (ptrAddrs dstOut).Nodup) ∧
    (∃ h' dstOut, ReplaceClone heapW srcW dstW = .ok (h', dstOut, srcW.length) ∧
      ptVals h' dstOut = [1, 2, 3, 4].map some ∧
      List.Forall₂ (· ≠ ·) dstOut srcW ∧ (ptrAddrs dstOut).Nodup)) :=
  ⟨⟨by decide, by decide, by decide, by decide⟩,
    C5_value_vs_identity srcW dstW [1, 2, 3, 4] [5, 5, 5, 5] heapW
      (by decide) (by decide) (by decide) (by decide)⟩

/- ### List set/take/drop helpers for the in-place compaction loops -/

theorem take_set_ge {β : Type} (l : List β) {i j : Nat} (b : β) (hij : i ≤ j) :
    (l.set j b).take i = l.take i := by
  induction l generalizing i j with
  | nil => simp
  | cons x xs ih =>
    cases j with
    | zero =>
      cases i with
      | zero => simp
      | succ n => simp at hij
    | succ j' =>
      cases i with
      | zero => simp
      | succ i' => simp [ih (Nat.le_of_succ_le_succ hij)]

theorem drop_set_lt {β : Type} (l : List β) {i j : Nat} (b : β) (hji : j < i) :
    (l.set j b).drop i = l.drop i := by
  induction l generalizing i j with
  | nil => simp
  | cons x xs ih =>
    cases j with
    | zero =>
      cases i with
      | zero => simp at hji
      | succ i' => simp
    | succ j' =>
      cases i with
      | zero => simp at hji
      | succ i' => simp [ih (Nat.lt_of_succ_lt_succ hji)]

theorem drop_set_ge {β : Type} (l : List β) {i j : Nat} (b : β) (hij : i ≤ j) :
    (l.set j b).drop i = (l.drop i).set (j - i) b := by
  induction l generalizing i j with
  | nil => simp
  | cons x xs ih =>
    cases i with
    | zero => simp
    | succ i' =>
      cases j with
      | zero => simp at hij
      | succ j' =>
        simp only [List.set_cons_succ, List.drop_succ_cons, Nat.succ_sub_succ]
        exact ih (Nat.le_of_succ_le_succ hij)

theorem take_succ_getElem {β : Type} (l : List β) {k : Nat} (hk : k < l.length) :
    l.take (k + 1) = l.take k ++ [l[k]] := by
  induction l generalizing k with
  | nil => simp at hk
  | cons x xs ih =>
    cases k with
    | zero => simp
    | succ k' =>
      simp only [List.take_succ_cons, List.getElem_cons_succ, List.cons_append]
      rw [ih (Nat.lt_of_succ_lt_succ hk)]

theorem getElem_set_self {β : Type} (l : List β) {j : Nat} (b : β)
    (hj : j < (l.set j b).length) :
    (l.set j b)[j] = b := by
  induction l generalizing j with
  | nil => simp at hj
  | cons x xs ih =>
    cases j with
    | zero => simp
    | succ j' => simp only [List.set_cons_succ, List.getElem_cons_succ]; exact ih (Nat.lt_of_succ_lt_succ hj)

theorem take_succ_set_self {β : Type} (l : List β) {j : Nat} (b : β) (hj : j < l.length) :
    (l.set j b).take (j + 1) = l.take j ++ [b] := by
  rw [take_succ_getElem _ (by simpa using hj), take_set_ge l b (le_refl j),
    getElem_set_self l b (by simpa using hj)]

theorem drop_eq_cons_self {β : Type} (l : List β) {i : Nat} (hi : i < l.length) :
    l.drop i = l[i] :: l.drop (i + 1) := by
  induction l generalizing i with
  | nil => simp at hi
  | cons x xs ih =>
    cases i with
    | zero => simp
    | succ i' => simp only [List.drop_succ_cons, List.getElem_cons_succ]; exact ih (Nat.lt_of_succ_lt_succ hi)

/- ### Removal algorithms (RangeOfPointers.hpp, lines 214-246)

   In-place compaction: the range is the list of its slots; `res` is the
   index of the `result` iterator (next slot to keep into) and `i` the
   index of the scanning iterator `first`.  No assertion guards the
   dereference of `*first`. -/

/-- The loop of `Remove`: keep (`*result = *first; result++`) when the
    pointee differs from `value`, otherwise `delete(*first)` and null the
    slot.  `gas` is the number of loop iterations still to run (the
    distance from `first` to `last`); the loop also stops early if the
    scan index leaves the range. -/
def removeGo [DecidableEq α] (value : α) :
    Nat → Heap α → List Ptr → Nat → Nat → Except CErr (Heap α × List Ptr × Nat)
  | 0, h, arr, res, _ => .ok (h, arr, res)
  | gas + 1, h, arr, res, i =>
    if hi : i < arr.length then
      match readPtr h arr[i] with
      | .error e => .error e
      | .ok v =>
        if v = value then
          removeGo value gas (deletePtr h arr[i]) (arr.set i none) res (i + 1)
        else
          removeGo value gas h (arr.set res arr[i]) (res + 1) (i + 1)
    else .ok (h, arr, res)

/-- `Remove(first, last, value)`: returns the final heap, the slots as
    left in place, and the returned iterator as an offset (the new
    logical end). -/
def Remove [DecidableEq α] (h : Heap α) (arr : List Ptr) (value : α) :
    Except CErr (Heap α × List Ptr × Nat) :=
  removeGo value arr.length h arr 0 0

/-- The loop of `RemoveIf`: keep when `pred` fails of the pointee,
    otherwise delete and null. -/
def removeIfGo (pred : α → Bool) :
    Nat → Heap α → List Ptr → Nat → Nat → Except CErr (Heap α × List Ptr × Nat)
  | 0, h, arr, res, _ => .ok (h, arr, res)
  | gas + 1, h, arr, res, i =>
    if hi : i < arr.length then
      match readPtr h arr[i] with
      | .error e => .error e
      | .ok v =>
        if pred v then
          removeIfGo pred gas (deletePtr h arr[i]) (arr.set i none) res (i + 1)
        else
          removeIfGo pred gas h (arr.set res arr[i]) (res + 1) (i + 1)
    else .ok (h, arr, res)

/-- `RemoveIf(first, last, value, pred)`: as in the source, the `value`
    argument is accepted but the body tests only `pred(*(*first))`. -/
def RemoveIf (pred : α → Bool) (h : Heap α) (arr : List Ptr) (value : α) :
    Except CErr (Heap α × List Ptr × Nat) :=
  removeIfGo pred arr.length h arr 0 0

/-- Recursive rendering of one scan: returns the kept pointers (in
    order) and, per scanned slot, what the scan leaves at its original
    position (the pointer itself when kept, the null sentinel when
    removed). -/
def removeIfLoop (pred : α → Bool) (h : Heap α) :
    List Ptr → Except CErr (Heap α × List Ptr × List Ptr)
  | [] => .ok (h, [], [])
  | p :: ps =>
    match readPtr h p with
    | .error e => .error e
    | .ok v =>
      if pred v then
        match removeIfLoop pred (deletePtr h p) ps with
        | .ok (h', kept, mask) => .ok (h', kept, none :: mask)
        | .error e => .error e
      else
        match removeIfLoop pred h ps with
        | .ok (h', kept, mask) => .ok (h', p :: kept, p :: mask)
        | .error e => .error e

/-- The slots as `removeIfGo` leaves them, reassembled from the loop
    state: the prefix before `res`, the kept pointers, the not-yet
    compacted scanned region, and the scan leavings past the overwritten
    part. -/
def spliceRm (arr : List Ptr) (res i : Nat) (kept mask : List Ptr) : List Ptr :=
  arr.take res ++ kept ++
    (arr.drop (res + kept.length)).take (i - (res + kept.length)) ++
    mask.drop (res + kept.length - i)

theorem spliceRm_term (arr : List Ptr) {res i : Nat} (hge : arr.length ≤ i)
    (hres : res ≤ i) : spliceRm arr res i [] [] = arr := by
  rw [spliceRm]
  simp only [List.length_nil, Nat.add_zero, List.append_nil, List.drop_nil]
  have h2 : (arr.drop res).take (i - res) = arr.drop res :=
    List.take_of_length_le (by simp only [List.length_drop]; omega)
  rw [h2, List.take_append_drop]

theorem spliceRm_remove (arr : List Ptr) {res i : Nat} (kept mask : List Ptr)
    (hi : i < arr.length) (hres : res ≤ i) :
    spliceRm (arr.set i none) res (i + 1) kept mask =
      spliceRm arr res i kept (none :: mask) := by
  rw [spliceRm, spliceRm, take_set_ge arr none hres]
  rcases le_or_lt (res + kept.length) i with hc | hc
  · rw [drop_set_ge arr none hc,
      show i + 1 - (res + kept.length) = (i - (res + kept.length)) + 1 by omega,
      take_succ_set_self _ none (by simp only [List.length_drop]; omega),
      show res + kept.length - (i + 1) = 0 by omega,
      show res + kept.length - i = 0 by omega]
    simp [List.append_assoc]
  · rw [drop_set_lt arr none (by omega),
      show i + 1 - (res + kept.length) = 0 by omega,
      show i - (res + kept.length) = 0 by omega,
      show res + kept.length - i = (res + kept.length - (i + 1)) + 1 by omega]
    simp

theorem spliceRm_keep (arr : List Ptr) {res i : Nat} {p : Ptr} (kept mask : List Ptr)
    (hi : i < arr.length) (hres : res ≤ i) (hp : arr[i] = p) :
    spliceRm (arr.set res p) (res + 1) (i + 1) kept mask =
      spliceRm arr res i (p :: kept) (p :: mask) := by
  rw [spliceRm, spliceRm, take_succ_set_self arr p (by omega),
    drop_set_lt arr p (by omega)]
  simp only [List.length_cons]
  rcases le_or_lt (res + 1 + kept.length) i with hc | hc
  · rw [show i + 1 - (res + 1 + kept.length) = (i - (res + 1 + kept.length)) + 1 by omega,
      take_succ_getElem _ (by simp only [List.length_drop]; omega),
      show res + 1 + kept.length - (i + 1) = 0 by omega,
      show res + (kept.length + 1) = res + 1 + kept.length by omega,
      show res + 1 + kept.length - i = 0 by omega]
    have hilen : i - (res + 1 + kept.length) < (arr.drop (res + 1 + kept.length)).length := by
      simp only [List.length_drop]
      omega
    have hg : (arr.drop (res + 1 + kept.length))[i - (res + 1 + kept.length)] = p := by
      rw [List.getElem_drop]
      simp only [show res + 1 + kept.length + (i - (res + 1 + kept.length)) = i from by omega]
      exact hp
    rw [hg]
    simp [List.append_assoc]
  · rw [show i + 1 - (res + 1 + kept.length) = 0 by omega,
      show res + (kept.length + 1) = res + 1 + kept.length by omega,
      show i - (res + 1 + kept.length) = 0 by omega,
      show res + 1 + kept.length - i = (res + 1 + kept.length - (i + 1)) + 1 by omega]
    simp

/-- The in-place scan equals the recursive rendering: from state
    `(res, i)`, `removeIfGo` is `removeIfLoop` on the unscanned suffix
    with its result spliced back into the slot list. -/
theorem removeIfGo_eq_loop (pred : α → Bool) :
    ∀ (gas : Nat) (h : Heap α) (arr : List Ptr) (res i : Nat),
      arr.length - i ≤ gas → res ≤ i →
      removeIfGo pred gas h arr res i =
        match removeIfLoop pred h (arr.drop i) with
        | .error e => .error e
        | .ok (h', kept, mask) =>
          .ok (h', spliceRm arr res i kept mask, res + kept.length) := by
  intro gas
  induction gas with
  | zero =>
    intro h arr res i hk hres
    have hge : arr.length ≤ i := by omega
    rw [removeIfGo, List.drop_eq_nil_of_le hge]
    simp only [removeIfLoop]
    rw [spliceRm_term arr hge hres]
    simp
  | succ k ih =>
    intro h arr res i hk hres
    by_cases hi : i < arr.length
    · rw [removeIfGo, dif_pos hi, drop_eq_cons_self arr hi]
      cases hrp : readPtr h arr[i] with
      | error e => simp only [removeIfLoop, hrp]
      | ok v =>
        simp only [removeIfLoop, hrp]
        by_cases hpv : pred v
        · simp only [hpv, if_true]
          rw [ih (deletePtr h arr[i]) (arr.set i none) res (i + 1)
            (by simp only [List.length_set]; omega) (by omega)]
          rw [drop_set_lt arr none (Nat.lt_succ_self i)]
          cases hloop : removeIfLoop pred (deletePtr h arr[i]) (arr.drop (i + 1)) with
          | error e => simp only [hloop]
          | ok t =>
            obtain ⟨h', kept, mask⟩ := t
            simp only [hloop]
            rw [spliceRm_remove arr kept mask hi hres]
        · simp only [hpv, if_false, Bool.false_eq_true]
          rw [ih h (arr.set res arr[i]) (res + 1) (i + 1)
            (by simp only [List.length_set]; omega) (by omega)]
          rw [drop_set_lt arr arr[i] (Nat.lt_succ_of_le hres)]
          cases hloop : removeIfLoop pred h (arr.drop (i + 1)) with
          | error e => simp only [hloop]
          | ok t =>
            obtain ⟨h', kept, mask⟩ := t
            simp only [hloop]
            rw [spliceRm_keep arr kept mask hi hres rfl,
              show res + 1 + kept.length = res + (kept.length + 1) by omega]
            simp
    · have hge : arr.length ≤ i := by omega
      rw [removeIfGo, dif_neg hi, List.drop_eq_nil_of_le hge]
      simp only [removeIfLoop]
      rw [spliceRm_term arr hge hres]
      simp

/-- The pointers the scan keeps: those whose pointee fails the removal
    predicate, in original order. -/
def keptPtrs (pred : α → Bool) (ps : List Ptr) (vs : List α) : List Ptr :=
  ((ps.zip vs).filter fun pv => !pred pv.2).map Prod.fst

/-- What the scan leaves at each original position: the null sentinel at
    a removed position, the original pointer otherwise. -/
def maskPtrs (pred : α → Bool) (ps : List Ptr) (vs : List α) : List Ptr :=
  (ps.zip vs).map fun pv => if pred pv.2 then none else pv.1

/-- The addresses the scan deletes: those of the pointers whose pointee
    satisfies the removal predicate. -/
def remAddrs (pred : α → Bool) (ps : List Ptr) (vs : List α) : List Addr :=
  ptrAddrs (((ps.zip vs).filter fun pv => pred pv.2).map Prod.fst)

theorem mem_remAddrs_imp (pred : α → Bool) :
    ∀ (ps : List Ptr) (vs : List α) (a : Addr),
      a ∈ remAddrs pred ps vs → a ∈ ptrAddrs ps := by
  intro ps
  induction ps with
  | nil => intro vs a ha; simp [remAddrs] at ha
  | cons p ps ih =>
    intro vs a ha
    cases vs with
    | nil => simp [remAddrs] at ha
    | cons v vs =>
      simp only [remAddrs, List.zip_cons_cons, List.filter_cons] at ha
      by_cases hpv : pred v
      · simp only [hpv, if_true, List.map_cons] at ha
        cases p with
        | none => simp only [ptrAddrs_cons_none] at ha ⊢; exact ih vs a ha
        | some b =>
          simp only [ptrAddrs_cons_some, List.mem_cons] at ha ⊢
          rcases ha with rfl | ha
          · exact Or.inl rfl
          · exact Or.inr (ih vs a ha)
      · simp only [hpv, Bool.false_eq_true, if_false] at ha
        cases p with
        | none => simp only [ptrAddrs_cons_none]; exact ih vs a ha
        | some b =>
          simp only [ptrAddrs_cons_some, List.mem_cons]
          exact Or.inr (ih vs a ha)

theorem mem_keptPtrs_imp (pred : α → Bool) :
    ∀ (ps : List Ptr) (vs : List α) (p : Ptr),
      p ∈ keptPtrs pred ps vs → p ∈ ps := by
  intro ps
  induction ps with
  | nil => intro vs p hp; simp [keptPtrs] at hp
  | cons q ps ih =>
    intro vs p hp
    cases vs with
    | nil => simp [keptPtrs] at hp
    | cons v vs =>
      simp only [keptPtrs, List.zip_cons_cons, List.filter_cons] at hp
      by_cases hpv : pred v
      · simp only [hpv, Bool.not_true, Bool.false_eq_true, if_false] at hp
        exact List.mem_cons_of_mem _ (ih vs p hp)
      · simp only [hpv, Bool.not_false, if_true, List.map_cons, List.mem_cons] at hp
        rcases hp with rfl | hp
        · exact List.mem_cons_self _ _
        · exact List.mem_cons_of_mem _ (ih vs p hp)

/-- Characterization of one full scan of `removeIfLoop` over live,
    pairwise-distinct slots: it succeeds, keeps exactly the non-matching
    pointers with pointees preserved, deletes exactly the matching
    addresses (journaling each once), and touches nothing else. -/
theorem removeIfLoop_spec (pred : α → Bool) :
    ∀ (ps : List Ptr) (vs : List α) (h : Heap α),
      ptVals h ps = vs.map some →
      (ptrAddrs ps).Nodup →
      ∃ h', removeIfLoop pred h ps =
          .ok (h', keptPtrs pred ps vs, maskPtrs pred ps vs) ∧
        ptVals h' (keptPtrs pred ps vs) = (vs.filter fun v => !pred v).map some ∧
        h'.freed = (remAddrs pred ps vs).reverse ++ h.freed ∧
        (∀ a ∈ remAddrs pred ps vs, h'.read a = none) ∧
        (∀ a, a ∉ remAddrs pred ps vs → h'.read a = h.read a) ∧
        h'.store.length = h.store.length := by
  intro ps
  induction ps with
  | nil =>
    intro vs h hs hnd
    cases vs with
    | nil =>
      exact ⟨h, by simp [removeIfLoop, keptPtrs, maskPtrs], by simp [keptPtrs],
        by simp [remAddrs, ptrAddrs], by simp [remAddrs, ptrAddrs],
        fun a _ => rfl, rfl⟩
    | cons v vs => simp at hs
  | cons p ps ih =>
    intro vs h hs hnd
    cases vs with
    | nil => simp at hs
    | cons v vs =>
      simp only [ptVals_cons, List.map_cons, List.cons.injEq] at hs
      obtain ⟨hpv, hs⟩ := hs
      obtain ⟨pa, rfl, hpalt⟩ := ptVal_lt_length hpv
      rw [show ptVal h (some pa) = h.read pa from rfl] at hpv
      simp only [ptrAddrs_cons_some, List.nodup_cons] at hnd
      obtain ⟨hpaNotMem, hnd⟩ := hnd
      have hread : readPtr h (some pa) = .ok v := by simp [readPtr, ptVal, hpv]
      by_cases hp : pred v
      · -- removed: delete the pointer, null the slot
        have hs1 : ptVals (deletePtr h (some pa)) ps = vs.map some := by
          rw [ptVals_delete_notMem hpaNotMem]; exact hs
        obtain ⟨h', heq, hkept, hfreed, hremNone, hframe, hlen⟩ :=
          ih vs (deletePtr h (some pa)) hs1 hnd
        have hkeq : keptPtrs pred (some pa :: ps) (v :: vs) = keptPtrs pred ps vs := by
          simp [keptPtrs, List.filter_cons, hp]
        have hmeq : maskPtrs pred (some pa :: ps) (v :: vs) =
            none :: maskPtrs pred ps vs := by
          simp [maskPtrs, hp]
        have hreq : remAddrs pred (some pa :: ps) (v :: vs) =
            pa :: remAddrs pred ps vs := by
          simp [remAddrs, List.filter_cons, hp]
        have hpaNotRem : pa ∉ remAddrs pred ps vs :=
          fun hmem => hpaNotMem (mem_remAddrs_imp pred ps vs pa hmem)
        refine ⟨h', ?_, ?_, ?_, ?_, ?_, ?_⟩
        · simp only [removeIfLoop, hread, hp, if_true, heq, hkeq, hmeq]
        · rw [hkeq]
          simpa [List.filter_cons, hp] using hkept
        · rw [hreq, hfreed]
          simp [deletePtr]
        · rw [hreq]
          intro a ha
          rcases List.mem_cons.mp ha with rfl | ha
          · rw [hframe a hpaNotRem, read_delete_self]
          · exact hremNone a ha
        · rw [hreq]
          intro a ha
          simp only [List.mem_cons] at ha
          push_neg at ha
          rw [hframe a ha.2, read_delete_ne h (fun he => ha.1 he.symm)]
        · rw [hlen, delete_store_length]
      · -- kept
        obtain ⟨h', heq, hkept, hfreed, hremNone, hframe, hlen⟩ := ih vs h hs hnd
        have hkeq : keptPtrs pred (some pa :: ps) (v :: vs) =
            some pa :: keptPtrs pred ps vs := by
          simp [keptPtrs, List.filter_cons, hp]
        have hmeq : maskPtrs pred (some pa :: ps) (v :: vs) =
            some pa :: maskPtrs pred ps vs := by
          simp [maskPtrs, hp]
        have hreq : remAddrs pred (some pa :: ps) (v :: vs) = remAddrs pred ps vs := by
          simp [remAddrs, List.filter_cons, hp]
        have hpaNotRem : pa ∉ remAddrs pred ps vs :=
          fun hmem => hpaNotMem (mem_remAddrs_imp pred ps vs pa hmem)
        refine ⟨h', ?_, ?_, ?_, ?_, ?_, ?_⟩
        · simp only [removeIfLoop, hread, hp, Bool.false_eq_true, if_false, heq, hkeq, hmeq]
        · rw [hkeq]
          simp only [ptVals_cons, List.filter_cons, hp, Bool.not_false, if_true,
            List.map_cons, List.cons.injEq]
          refine ⟨?_, hkept⟩
          show h'.read pa = some v
          rw [hframe pa hpaNotRem]
          exact hpv
        · rw [hreq]; exact hfreed
        · rw [hreq]; exact hremNone
        · rw [hreq]; exact hframe
        · exact hlen

/-- The removal predicate of `Remove`: pointee equals `value`. -/
def eqPred [DecidableEq α] (value : α) : α → Bool := fun x => decide (x = value)

/-- `Remove` is `RemoveIf` at the equality predicate (their loops differ
    only in the spelled-out comparison `*(*first) == value`). -/
theorem removeGo_eq_removeIfGo [DecidableEq α] (value : α) :
    ∀ (gas : Nat) (h : Heap α) (arr : List Ptr) (res i : Nat),
      removeGo value gas h arr res i = removeIfGo (eqPred value) gas h arr res i := by
  intro gas
  induction gas with
  | zero => intro h arr res i; rfl
  | succ gas ih =>
    intro h arr res i
    rw [removeGo, removeIfGo]
    by_cases hi : i < arr.length
    · rw [dif_pos hi, dif_pos hi]
      cases hrp : readPtr h arr[i] with
      | error e => rfl
      | ok v =>
        by_cases hv : v = value
        · simp [hv, eqPred, ih]
        · simp [hv, eqPred, ih]
    · rw [dif_neg hi, dif_neg hi]

theorem RemoveIf_eq_loop (pred : α → Bool) (h : Heap α) (arr : List Ptr) (value : α) :
    RemoveIf pred h arr value =
      match removeIfLoop pred h arr with
      | .error e => .error e
      | .ok (h', kept, mask) => .ok (h', kept ++ mask.drop kept.length, kept.length) := by
  rw [RemoveIf, removeIfGo_eq_loop pred arr.length h arr 0 0 (by omega) (le_refl 0)]
  rw [List.drop_zero]
  cases hloop : removeIfLoop pred h arr with
  | error e => rfl
  | ok t =>
    obtain ⟨h', kept, mask⟩ := t
    simp [spliceRm]

theorem Remove_eq_loop [DecidableEq α] (h : Heap α) (arr : List Ptr) (value : α) :
    Remove h arr value =
      match removeIfLoop (eqPred value) h arr with
      | .error e => .error e
      | .ok (h', kept, mask) => .ok (h', kept ++ mask.drop kept.length, kept.length) := by
  rw [Remove, removeGo_eq_removeIfGo]
  exact RemoveIf_eq_loop (eqPred value) h arr value

theorem zip_fst_sublist : ∀ (ps : List Ptr) (vs : List α),
    (((ps.zip vs).map Prod.fst)).Sublist ps := by
  intro ps
  induction ps with
  | nil => intro vs; simp
  | cons p ps ih =>
    intro vs
    cases vs with
    | nil => simp
    | cons v vs =>
      simp only [List.zip_cons_cons, List.map_cons]
      exact (ih vs).cons₂ p

theorem remAddrs_nodup (pred : α → Bool) (ps : List Ptr) (vs : List α)
    (hnd : (ptrAddrs ps).Nodup) : (remAddrs pred ps vs).Nodup := by
  have h1 : (((ps.zip vs).filter fun pv => pred pv.2).map Prod.fst).Sublist
      ((ps.zip vs).map Prod.fst) := (List.filter_sublist _).map Prod.fst
  have h2 := h1.trans (zip_fst_sublist ps vs)
  exact hnd.sublist (h2.filterMap id)

theorem maskPtrs_removed_null (pred : α → Bool) :
    ∀ (ps : List Ptr) (vs : List α) (j : Nat) (v : α),
      vs[j]? = some v → j < ps.length → pred v →
      (maskPtrs pred ps vs)[j]? = some none := by
  intro ps
  induction ps with
  | nil => intro vs j v _ hj _; simp at hj
  | cons p ps ih =>
    intro vs j v hv hj hpv
    cases vs with
    | nil => simp at hv
    | cons w ws =>
      cases j with
      | zero =>
        simp only [List.getElem?_cons_zero, Option.some.injEq] at hv
        subst hv
        simp [maskPtrs, hpv]
      | succ j' =>
        simp only [List.getElem?_cons_succ] at hv
        simp only [maskPtrs, List.zip_cons_cons, List.map_cons, List.getElem?_cons_succ]
        exact ih ws j' v hv (Nat.lt_of_succ_lt_succ hj) hpv

theorem maskPtrs_mem (pred : α → Bool) :
    ∀ (ps : List Ptr) (vs : List α) (p : Ptr), p ∈ maskPtrs pred ps vs →
      p = none ∨ p ∈ keptPtrs pred ps vs := by
  intro ps
  induction ps with
  | nil => intro vs p hp; simp [maskPtrs] at hp
  | cons q ps ih =>
    intro vs p hp
    cases vs with
    | nil => simp [maskPtrs] at hp
    | cons v vs =>
      simp only [maskPtrs, List.zip_cons_cons, List.map_cons, List.mem_cons] at hp
      by_cases hv : pred v
      · rcases hp with hhead | htail
        · left; rw [hhead]; simp [hv]
        · rcases ih vs p htail with h0 | h1
          · exact Or.inl h0
          · right
            simpa [keptPtrs, List.filter_cons, hv] using h1
      · rcases hp with hhead | htail
        · right
          rw [hhead]
          simp [keptPtrs, List.filter_cons, hv]
        · rcases ih vs p htail with h0 | h1
          · exact Or.inl h0
          · right
            simp only [keptPtrs, List.zip_cons_cons, List.filter_cons, hv, Bool.not_false,
              if_true, List.map_cons, List.mem_cons]
            right
            simpa [keptPtrs] using h1

/-- Claim C3: over a range of non-null live pointers owning distinct
    addresses, `Remove(first, last, value)` succeeds; the slots it leaves
    are the kept pointers (exactly those whose pointee differs from
    `value`, in original order, pointees preserved) compacted to the
    front, the returned offset is their count, each removed pointer's
    address is journaled as deleted exactly once, and every removed
    position of the scan's leavings holds the null sentinel. -/
theorem C3_remove_invariant [DecidableEq α] (h : Heap α) (arr : List Ptr) (vs : List α)
    (value : α)
    (hs : ptVals h arr = vs.map some)
    (hnd : (ptrAddrs arr).Nodup) :
    ∃ h', Remove h arr value =
        .ok (h', keptPtrs (eqPred value) arr vs ++
            (maskPtrs (eqPred value) arr vs).drop (keptPtrs (eqPred value) arr vs).length,
          (keptPtrs (eqPred value) arr vs).length) ∧
      ptVals h' (keptPtrs (eqPred value) arr vs) =
        (vs.filter fun v => !eqPred value v).map some ∧
      h'.freed = (remAddrs (eqPred value) arr vs).reverse ++ h.freed ∧
      (remAddrs (eqPred value) arr vs).Nodup ∧
      (∀ j v', vs[j]? = some v' → j < arr.length → eqPred value v' →
        (maskPtrs (eqPred value) arr vs)[j]? = some none) := by
  obtain ⟨h', heq, hkept, hfreed, -, -, -⟩ :=
    removeIfLoop_spec (eqPred value) arr vs h hs hnd
  refine ⟨h', ?_, hkept, hfreed, remAddrs_nodup _ _ _ hnd, ?_⟩
  · rw [Remove_eq_loop, heq]
  · intro j v' hv' hj hpv
    exact maskPtrs_removed_null (eqPred value) arr vs j v' hv' hj hpv

/-- A concrete owned range with pointees `[1, 9, 9, 2]`. -/
def heapR : Heap Nat := ⟨[some 1, some 9, some 9, some 2], []⟩

def arrR : List Ptr := [some 0, some 1, some 2, some 3]

theorem C3_remove_invariant_witness :
    (ptVals heapR arrR = [1, 9, 9, 2].map some ∧ (ptrAddrs arrR).Nodup) ∧
    (∃ h', Remove heapR arrR 9 =
        .ok (h', keptPtrs (eqPred 9) arrR [1, 9, 9, 2] ++
            (maskPtrs (eqPred 9) arrR [1, 9, 9, 2]).drop
              (keptPtrs (eqPred 9) arrR [1, 9, 9, 2]).length,
          (keptPtrs (eqPred 9) arrR [1, 9, 9, 2]).length) ∧
      ptVals h' (keptPtrs (eqPred 9) arrR [1, 9, 9, 2]) =
        ([1, 9, 9, 2].filter fun v => !eqPred 9 v).map some ∧
      h'.freed = (remAddrs (eqPred 9) arrR [1, 9, 9, 2]).reverse ++ heapR.freed ∧
      (remAddrs (eqPred 9) arrR [1, 9, 9, 2]).Nodup ∧
      (∀ j v', ([1, 9, 9, 2] : List Nat)[j]? = some v' → j < arrR.length → eqPred 9 v' →
        (maskPtrs (eqPred 9) arrR [1, 9, 9, 2])[j]? = some none)) :=
  ⟨⟨by decide, by decide⟩,
    C3_remove_invariant heapR arrR [1, 9, 9, 2] 9 (by decide) (by decide)⟩

/-- A concrete owned range with pointees `[1, 2]`. -/
def heapR7 : Heap Nat := ⟨[some 1, some 2], []⟩

/-- Claim C7 counterexample: with the unary predicate "pointee equals 1"
    and value argument `99`, `RemoveIf` still deletes the element whose
    pointee is `1` — the same result as with value argument `1` — so the
    value argument does not participate in the removal decision, contrary
    to the claim. -/
theorem C7_counterexample :
    RemoveIf (eqPred 1) heapR7 [some 0, some 1] 99 =
      RemoveIf (eqPred 1) heapR7 [some 0, some 1] 1 ∧
    RemoveIf (eqPred 1) heapR7 [some 0, some 1] 99 =
      .ok (⟨[none, some 2], [0]⟩, [some 1, some 1], 1) :=
  ⟨rfl, by decide⟩

/-- Claim C7 (amended): `RemoveIf(first, last, value, pred)` deletes (and
    nulls the scanned slot of) exactly those elements whose pointee
    satisfies the unary predicate `pred`, keeping the others compacted to
    the front in original order; the `value` argument is ignored — the
    result is identical for any two values. -/
theorem C7_removeIf_amended (pred : α → Bool) (h : Heap α) (arr : List Ptr)
    (vs : List α) (value value' : α)
    (hs : ptVals h arr = vs.map some)
    (hnd : (ptrAddrs arr).Nodup) :
    RemoveIf pred h arr value = RemoveIf pred h arr value' ∧
    (∃ h', RemoveIf pred h arr value =
        .ok (h', keptPtrs pred arr vs ++
            (maskPtrs pred arr vs).drop (keptPtrs pred arr vs).length,
          (keptPtrs pred arr vs).length) ∧
      ptVals h' (keptPtrs pred arr vs) = (vs.filter fun v => !pred v).map some ∧
      h'.freed = (remAddrs pred arr vs).reverse ++ h.freed ∧
      (remAddrs pred arr vs).Nodup ∧
      (∀ j v', vs[j]? = some v' → j < arr.length → pred v' →
        (maskPtrs pred arr vs)[j]? = some none)) := by
  refine ⟨rfl, ?_⟩
  obtain ⟨h', heq, hkept, hfreed, -, -, -⟩ := removeIfLoop_spec pred arr vs h hs hnd
  refine ⟨h', ?_, hkept, hfreed, remAddrs_nodup _ _ _ hnd, ?_⟩
  · rw [RemoveIf_eq_loop, heq]
  · intro j v' hv' hj hpv
    exact maskPtrs_removed_null pred arr vs j v' hv' hj hpv

theorem C7_removeIf_amended_witness :
    (ptVals heapR7 [some 0, some 1] = [1, 2].map some ∧
      (ptrAddrs [some 0, some 1]).Nodup) ∧
    (RemoveIf (eqPred 1) heapR7 [some 0, some 1] 99 =
        RemoveIf (eqPred 1) heapR7 [some 0, some 1] 55 ∧
    (∃ h', RemoveIf (eqPred 1) heapR7 [some 0, some 1] 99 =
        .ok (h', keptPtrs (eqPred 1) [some 0, some 1] [1, 2] ++
            (maskPtrs (eqPred 1) [some 0, some 1] [1, 2]).drop
              (keptPtrs (eqPred 1) [some 0, some 1] [1, 2]).length,
          (keptPtrs (eqPred 1) [some 0, some 1] [1, 2]).length) ∧
      ptVals h' (keptPtrs (eqPred 1) [some 0, some 1] [1, 2]) =
        ([1, 2].filter fun v => !eqPred 1 v).map some ∧
      h'.freed = (remAddrs (eqPred 1) [some 0, some 1] [1, 2]).reverse ++ heapR7.freed ∧
      (remAddrs (eqPred 1) [some 0, some 1] [1, 2]).Nodup ∧
      (∀ j v', ([1, 2] : List Nat)[j]? = some v' → j < ([some 0, some 1] : List Ptr).length →
        eqPred 1 v' →
        (maskPtrs (eqPred 1) [some 0, some 1] [1, 2])[j]? = some none))) :=
  ⟨⟨by decide, by decide⟩,
    C7_removeIf_amended (eqPred 1) heapR7 [some 0, some 1] [1, 2] 99 55
      (by decide) (by decide)⟩

/- ### Unique (RangeOfPointers.hpp, lines 249-268)

   `result` stays on the most recently kept element; each scanned element
   whose pointee equals `*(*result)`'s pointee is deleted and its slot
   nulled, otherwise `result` advances and takes the pointer
   (`*result = *first` after `++result`).  Dereferences are unchecked. -/

/-- The loop of `Unique`; `gas` is the remaining iteration count, `res`
    the index of `result`, `i` the index of `first`.  On exit the new
    logical end is `res + 1` (the final `++result`). -/
def uniqueGo [DecidableEq α] :
    Nat → Heap α → List Ptr → Nat → Nat → Except CErr (Heap α × List Ptr × Nat)
  | 0, h, arr, res, _ => .ok (h, arr, res + 1)
  | gas + 1, h, arr, res, i =>
    if hi : i < arr.length then
      match readPtr h (arr.getD res none) with
      | .error e => .error e
      | .ok w =>
        match readPtr h arr[i] with
        | .error e => .error e
        | .ok v =>
          if w = v then
            uniqueGo gas (deletePtr h arr[i]) (arr.set i none) res (i + 1)
          else
            uniqueGo gas h (arr.set (res + 1) arr[i]) (res + 1) (i + 1)
    else .ok (h, arr, res + 1)

/-- `Unique(first, last)`: the empty range returns `last`; otherwise the
    scan starts at the second slot with `result` on the first. -/
def Unique [DecidableEq α] (h : Heap α) (arr : List Ptr) :
    Except CErr (Heap α × List Ptr × Nat) :=
  if arr.isEmpty then .ok (h, arr, arr.length)
  else uniqueGo (arr.length - 1) h arr 0 1

/-- Recursive rendering of the `Unique` scan: `rp` is the pointer in the
    `result` slot (the last kept element), against whose pointee each
    scanned pointee is compared. -/
def uniqueLoop [DecidableEq α] (rp : Ptr) (h : Heap α) :
    List Ptr → Except CErr (Heap α × List Ptr × List Ptr)
  | [] => .ok (h, [], [])
  | p :: ps =>
    match readPtr h rp with
    | .error e => .error e
    | .ok w =>
      match readPtr h p with
      | .error e => .error e
      | .ok v =>
        if w = v then
          match uniqueLoop rp (deletePtr h p) ps with
          | .ok (h', kept, mask) => .ok (h', kept, none :: mask)
          | .error e => .error e
        else
          match uniqueLoop p h ps with
          | .ok (h', kept, mask) => .ok (h', p :: kept, p :: mask)
          | .error e => .error e

/-- The in-place `Unique` scan equals the recursive rendering spliced
    back (the splice of the remove loops at result index `res + 1`). -/
theorem uniqueGo_eq_loop [DecidableEq α] :
    ∀ (gas : Nat) (h : Heap α) (arr : List Ptr) (res i : Nat),
      arr.length - i ≤ gas → res < i →
      uniqueGo gas h arr res i =
        match uniqueLoop (arr.getD res none) h (arr.drop i) with
        | .error e => .error e
        | .ok (h', kept, mask) =>
          .ok (h', spliceRm arr (res + 1) i kept mask, res + kept.length + 1) := by
  intro gas
  induction gas with
  | zero =>
    intro h arr res i hk hres
    have hge : arr.length ≤ i := by omega
    rw [uniqueGo, List.drop_eq_nil_of_le hge]
    simp only [uniqueLoop]
    rw [spliceRm_term arr hge (by omega)]
    simp
  | succ k ih =>
    intro h arr res i hk hres
    by_cases hi : i < arr.length
    · rw [uniqueGo, dif_pos hi, drop_eq_cons_self arr hi]
      cases hrw : readPtr h (arr.getD res none) with
      | error e => simp only [uniqueLoop, hrw]
      | ok w =>
        cases hrp : readPtr h arr[i] with
        | error e => simp only [uniqueLoop, hrw, hrp]
        | ok v =>
          simp only [uniqueLoop, hrw, hrp]
          by_cases hwv : w = v
          · simp only [hwv, if_true]
            rw [ih (deletePtr h arr[i]) (arr.set i none) res (i + 1)
              (by simp only [List.length_set]; omega) (by omega)]
            rw [drop_set_lt arr none (Nat.lt_succ_self i),
              getD_set_ne arr none (show i ≠ res from by omega)]
            cases hloop : uniqueLoop (arr.getD res none) (deletePtr h arr[i])
                (arr.drop (i + 1)) with
            | error e => simp only [hloop]
            | ok t =>
              obtain ⟨h', kept, mask⟩ := t
              simp only [hloop]
              rw [spliceRm_remove arr kept mask hi (by omega)]
          · simp only [hwv, if_false]
            rw [ih h (arr.set (res + 1) arr[i]) (res + 1) (i + 1)
              (by simp only [List.length_set]; omega) (by omega)]
            rw [drop_set_lt arr arr[i] (Nat.lt_succ_of_le (Nat.succ_le_of_lt hres)),
              getD_set_self_lt arr arr[i] (show res + 1 < arr.length from by omega)]
            cases hloop : uniqueLoop arr[i] h (arr.drop (i + 1)) with
            | error e => simp only [hloop]
            | ok t =>
              obtain ⟨h', kept, mask⟩ := t
              simp only [hloop]
              rw [spliceRm_keep arr kept mask hi (by omega) rfl]
              simp only [List.length_cons]
              rw [show res + 1 + kept.length + 1 = res + (kept.length + 1) + 1 by omega]
    · have hge : arr.length ≤ i := by omega
      rw [uniqueGo, dif_neg hi, List.drop_eq_nil_of_le hge]
      simp only [uniqueLoop]
      rw [spliceRm_term arr hge (by omega)]
      simp

/-- The values `Unique` keeps from a run of pointees scanned against the
    last kept value `w`: adjacent repeats collapse. -/
def destut [DecidableEq α] (w : α) : List α → List α
  | [] => []
  | v :: vs => if w = v then destut w vs else v :: destut v vs

/-- The pointers `Unique` keeps, scanning pointees `vs` against the last
    kept pointee `w`. -/
def keptU [DecidableEq α] (w : α) : List Ptr → List α → List Ptr
  | [], _ => []
  | _ :: _, [] => []
  | p :: ps, v :: vs => if w = v then keptU w ps vs else p :: keptU v ps vs

/-- What the `Unique` scan leaves at each scanned position: the null
    sentinel at a collapsed duplicate, the original pointer otherwise. -/
def maskU [DecidableEq α] (w : α) : List Ptr → List α → List Ptr
  | [], _ => []
  | _ :: _, [] => []
  | p :: ps, v :: vs => if w = v then none :: maskU w ps vs else p :: maskU v ps vs

/-- The pointers `Unique` deletes (the collapsed duplicates), in scan
    order. -/
def remPU [DecidableEq α] (w : α) : List Ptr → List α → List Ptr
  | [], _ => []
  | _ :: _, [] => []
  | p :: ps, v :: vs => if w = v then p :: remPU w ps vs else remPU v ps vs

theorem remPU_sublist [DecidableEq α] :
    ∀ (ps : List Ptr) (vs : List α) (w : α), (remPU w ps vs).Sublist ps := by
  intro ps
  induction ps with
  | nil => intro vs w; simp [remPU]
  | cons p ps ih =>
    intro vs w
    cases vs with
    | nil => simp [remPU]
    | cons v vs =>
      rw [remPU]
      by_cases hwv : w = v
      · simp only [hwv, if_true]
        exact (ih vs v).cons₂ p
      · simp only [hwv, if_false]
        exact (ih vs v).cons p

theorem keptU_sublist [DecidableEq α] :
    ∀ (ps : List Ptr) (vs : List α) (w : α), (keptU w ps vs).Sublist ps := by
  intro ps
  induction ps with
  | nil => intro vs w; simp [keptU]
  | cons p ps ih =>
    intro vs w
    cases vs with
    | nil => simp [keptU]
    | cons v vs =>
      rw [keptU]
      by_cases hwv : w = v
      · simp only [hwv, if_true]
        exact (ih vs v).cons p
      · simp only [hwv, if_false]
        exact (ih vs v).cons₂ p

theorem maskU_mem [DecidableEq α] :
    ∀ (ps : List Ptr) (vs : List α) (w : α) (p : Ptr), p ∈ maskU w ps vs →
      p = none ∨ p ∈ keptU w ps vs := by
  intro ps
  induction ps with
  | nil => intro vs w p hp; simp [maskU] at hp
  | cons q ps ih =>
    intro vs w p hp
    cases vs with
    | nil => simp [maskU] at hp
    | cons v vs =>
      rw [maskU] at hp
      by_cases hwv : w = v
      · simp only [hwv, if_true, List.mem_cons] at hp
        rcases hp with rfl | hp
        · exact Or.inl rfl
        · rcases ih vs v p hp with h0 | h1
          · exact Or.inl h0
          · right
            rw [keptU]
            simp [hwv, h1]
      · simp only [hwv, if_false, List.mem_cons] at hp
        rcases hp with rfl | hp
        · right
          rw [keptU]
          simp [hwv]
        · rcases ih vs v p hp with h0 | h1
          · exact Or.inl h0
          · right
            rw [keptU]
            simp [hwv, h1]

/-- Characterization of the `Unique` scan over live, pairwise-distinct
    slots: it succeeds, keeps exactly the first element of each run of
    equal adjacent pointees (pointees preserved), deletes the collapsed
    duplicates (journaling each once), and touches nothing else. -/
theorem uniqueLoop_spec [DecidableEq α] :
    ∀ (ps : List Ptr) (vs : List α) (rp : Ptr) (w : α) (h : Heap α),
      ptVal h rp = some w →
      ptVals h ps = vs.map some →
      (ptrAddrs (rp :: ps)).Nodup →
      ∃ h', uniqueLoop rp h ps = .ok (h', keptU w ps vs, maskU w ps vs) ∧
        ptVals h' (keptU w ps vs) = (destut w vs).map some ∧
        ptVal h' rp = some w ∧
        h'.freed = (ptrAddrs (remPU w ps vs)).reverse ++ h.freed ∧
        (∀ a ∈ ptrAddrs (remPU w ps vs), h'.read a = none) ∧
        (∀ a, a ∉ ptrAddrs (remPU w ps vs) → h'.read a = h.read a) ∧
        h'.store.length = h.store.length := by
  intro ps
  induction ps with
  | nil =>
    intro vs rp w h hrp hs hnd
    cases vs with
    | nil =>
      exact ⟨h, by simp [uniqueLoop, keptU, maskU], by simp [keptU, destut],
        hrp, by simp [remPU, ptrAddrs], by simp [remPU, ptrAddrs], fun a _ => rfl, rfl⟩
    | cons v vs => simp at hs
  | cons p ps ih =>
    intro vs rp w h hrp hs hnd
    cases vs with
    | nil => simp at hs
    | cons v vs =>
      simp only [ptVals_cons, List.map_cons, List.cons.injEq] at hs
      obtain ⟨hpv, hs⟩ := hs
      obtain ⟨pa, rfl, hpalt⟩ := ptVal_lt_length hpv
      obtain ⟨ra, rfl, hralt⟩ := ptVal_lt_length hrp
      rw [show ptVal h (some pa) = h.read pa from rfl] at hpv
      rw [show ptVal h (some ra) = h.read ra from rfl] at hrp
      simp only [ptrAddrs_cons_some, List.nodup_cons, List.mem_cons] at hnd
      push_neg at hnd
      obtain ⟨⟨hrapa, hraMem⟩, hpaMem, hnd⟩ := hnd
      have hreadW : readPtr h (some ra) = .ok w := by simp [readPtr, ptVal, hrp]
      have hreadV : readPtr h (some pa) = .ok v := by simp [readPtr, ptVal, hpv]
      by_cases hwv : w = v
      · -- collapsed duplicate: delete the scanned pointer
        have hkeq : keptU w (some pa :: ps) (v :: vs) = keptU w ps vs := by
          rw [keptU, if_pos hwv]
        have hmeq : maskU w (some pa :: ps) (v :: vs) = none :: maskU w ps vs := by
          rw [maskU, if_pos hwv]
        have hreq : remPU w (some pa :: ps) (v :: vs) = some pa :: remPU w ps vs := by
          rw [remPU, if_pos hwv]
        have hdeq : destut w (v :: vs) = destut w vs := by
          rw [destut, if_pos hwv]
        have hrp1 : ptVal (deletePtr h (some pa)) (some ra) = some w := by
          show (deletePtr h (some pa)).read ra = some w
          rw [read_delete_ne h (fun he => hrapa he.symm)]
          exact hrp
        have hs1 : ptVals (deletePtr h (some pa)) ps = vs.map some := by
          rw [ptVals_delete_notMem hpaMem]; exact hs
        have hnd1 : (ptrAddrs (some ra :: ps)).Nodup := by
          simp only [ptrAddrs_cons_some, List.nodup_cons]
          exact ⟨hraMem, hnd⟩
        obtain ⟨h', heq, hkept, hrp', hfreed, hremNone, hframe, hlen⟩ :=
          ih vs (some ra) w (deletePtr h (some pa)) hrp1 hs1 hnd1
        have hpaNotRem : pa ∉ ptrAddrs (remPU w ps vs) := fun hmem =>
          hpaMem (((remPU_sublist ps vs w).filterMap id).mem hmem)
        refine ⟨h', ?_, ?_, hrp', ?_, ?_, ?_, ?_⟩
        · rw [uniqueLoop, hreadW, hreadV, hkeq, hmeq]
          simp only [if_pos hwv, heq]
        · rw [hkeq, hdeq]
          exact hkept
        · rw [hreq, hfreed]
          simp [deletePtr]
        · rw [hreq]
          simp only [ptrAddrs_cons_some, List.mem_cons]
          intro a ha
          rcases ha with rfl | ha
          · rw [hframe a hpaNotRem, read_delete_self]
          · exact hremNone a ha
        · rw [hreq]
          simp only [ptrAddrs_cons_some, List.mem_cons]
          intro a ha
          push_neg at ha
          rw [hframe a ha.2, read_delete_ne h (fun he => ha.1 he.symm)]
        · rw [hlen, delete_store_length]
      · -- kept: result advances onto the scanned pointer
        have hkeq : keptU w (some pa :: ps) (v :: vs) = some pa :: keptU v ps vs := by
          rw [keptU, if_neg hwv]
        have hmeq : maskU w (some pa :: ps) (v :: vs) = some pa :: maskU v ps vs := by
          rw [maskU, if_neg hwv]
        have hreq : remPU w (some pa :: ps) (v :: vs) = remPU v ps vs := by
          rw [remPU, if_neg hwv]
        have hdeq : destut w (v :: vs) = v :: destut v vs := by
          rw [destut, if_neg hwv]
        have hnd1 : (ptrAddrs (some pa :: ps)).Nodup := by
          simp only [ptrAddrs_cons_some, List.nodup_cons]
          exact ⟨hpaMem, hnd⟩
        obtain ⟨h', heq, hkept, hrp', hfreed, hremNone, hframe, hlen⟩ :=
          ih vs (some pa) v h hpv hs hnd1
        have hraNotRem : ra ∉ ptrAddrs (remPU v ps vs) := fun hmem =>
          hraMem (((remPU_sublist ps vs v).filterMap id).mem hmem)
        refine ⟨h', ?_, ?_, ?_, ?_, ?_, ?_, ?_⟩
        · rw [uniqueLoop, hreadW, hreadV, hkeq, hmeq]
          simp only [if_neg hwv, heq]
        · rw [hkeq, hdeq]
          simp only [ptVals_cons, List.map_cons, List.cons.injEq]
          exact ⟨hrp', hkept⟩
        · show ptVal h' (some ra) = some w
          show h'.read ra = some w
          rw [hframe ra hraNotRem]
          exact hrp
        · rw [remPU]
          simp only [hwv, if_false]
          exact hfreed
        · rw [remPU]
          simp only [hwv, if_false]
          exact hremNone
        · rw [remPU]
          simp only [hwv, if_false]
          exact hframe
        · exact hlen

/- ### Properties of the kept pointees of `Unique` -/

theorem destut_chain [DecidableEq α] :
    ∀ (vs : List α) (w : α), List.Chain' (· ≠ ·) (w :: destut w vs) := by
  intro vs
  induction vs with
  | nil => intro w; simp [destut]
  | cons v vs ih =>
    intro w
    rw [destut]
    by_cases hwv : w = v
    · rw [if_pos hwv]
      exact ih w
    · rw [if_neg hwv]
      exact List.chain'_cons.mpr ⟨hwv, ih v⟩

theorem destut_sublist [DecidableEq α] :
    ∀ (vs : List α) (w : α), (destut w vs).Sublist vs := by
  intro vs
  induction vs with
  | nil => intro w; simp [destut]
  | cons v vs ih =>
    intro w
    rw [destut]
    by_cases hwv : w = v
    · rw [if_pos hwv]
      exact (ih w).cons v
    · rw [if_neg hwv]
      exact (ih v).cons₂ v

theorem destut_mem_of_sorted [LinearOrder α] :
    ∀ (vs : List α) (w : α), List.Chain' (· ≤ ·) (w :: vs) →
      ∀ v ∈ vs, v = w ∨ v ∈ destut w vs := by
  intro vs
  induction vs with
  | nil => intro w _ v hv; simp at hv
  | cons u vs ih =>
    intro w hch v hv
    rw [List.chain'_cons] at hch
    obtain ⟨hwu, hch⟩ := hch
    rw [destut]
    by_cases hwv : w = u
    · rw [if_pos hwv]
      rcases List.mem_cons.mp hv with rfl | hv
      · exact Or.inl hwv.symm
      · exact ih w (by rw [hwv]; exact hch) v hv
    · rw [if_neg hwv]
      rcases List.mem_cons.mp hv with rfl | hv
      · exact Or.inr (List.mem_cons_self _ _)
      · rcases ih u hch v hv with h0 | h1
        · exact Or.inr (h0 ▸ List.mem_cons_self _ _)
        · exact Or.inr (List.mem_cons_of_mem _ h1)

theorem destut_chain_lt_of_sorted [LinearOrder α] :
    ∀ (vs : List α) (w : α), List.Chain' (· ≤ ·) (w :: vs) →
      List.Chain' (· < ·) (w :: destut w vs) := by
  intro vs
  induction vs with
  | nil => intro w _; simp [destut]
  | cons u vs ih =>
    intro w hch
    rw [List.chain'_cons] at hch
    obtain ⟨hwu, hch⟩ := hch
    rw [destut]
    by_cases hwv : w = u
    · rw [if_pos hwv]
      exact ih w (by rw [hwv]; exact hch)
    · rw [if_neg hwv]
      exact List.chain'_cons.mpr ⟨lt_of_le_of_ne hwu hwv, ih u hch⟩

theorem destut_nodup_of_sorted [LinearOrder α] (vs : List α) (w : α)
    (hch : List.Chain' (· ≤ ·) (w :: vs)) : (w :: destut w vs).Nodup := by
  have h1 := destut_chain_lt_of_sorted vs w hch
  have h2 : List.Pairwise (· < ·) (w :: destut w vs) :=
    (List.chain'_iff_pairwise).mp h1
  exact h2.imp ne_of_lt

/-- `Unique` on a non-empty range, rendered through the scan loop. -/
theorem Unique_eq_loop [DecidableEq α] (h : Heap α) (p0 : Ptr) (rest : List Ptr) :
    Unique h (p0 :: rest) =
      match uniqueLoop p0 h rest with
      | .error e => .error e
      | .ok (h', kept, mask) =>
        .ok (h', (p0 :: kept) ++ mask.drop kept.length, kept.length + 1) := by
  rw [Unique]
  simp only [List.isEmpty_cons, if_false, Bool.false_eq_true]
  rw [show (p0 :: rest).length - 1 = rest.length by simp]
  rw [uniqueGo_eq_loop rest.length h (p0 :: rest) 0 1 (by simp) (by omega)]
  rw [show (p0 :: rest).getD 0 none = p0 from rfl,
    show (p0 :: rest).drop 1 = rest from rfl]
  cases hloop : uniqueLoop p0 h rest with
  | error e => rfl
  | ok t =>
    obtain ⟨h', kept, mask⟩ := t
    simp [spliceRm, List.take_succ_cons]

/-- Claim C4: over a non-empty range of non-null live pointers owning
    distinct addresses, `Unique` succeeds and leaves the kept pointers
    (the first element of each run of equal adjacent pointees) compacted
    at the front with the new logical end one past them; the kept
    pointees have no two adjacent equal values and appear in original
    order, and when the range is sorted they are exactly one
    representative of each distinct value; each collapsed duplicate's
    address is journaled as deleted exactly once, every scan leaving is
    the null sentinel or a kept pointer, and the empty range returns
    `last`. -/
theorem C4_unique_invariant [LinearOrder α] (h : Heap α) (p0 : Ptr) (rest : List Ptr)
    (v0 : α) (vs : List α)
    (hs : ptVals h (p0 :: rest) = (v0 :: vs).map some)
    (hnd : (ptrAddrs (p0 :: rest)).Nodup) :
    (∀ (h0 : Heap α), Unique h0 ([] : List Ptr) = .ok (h0, [], 0)) ∧
    ∃ h', Unique h (p0 :: rest) =
        .ok (h', (p0 :: keptU v0 rest vs) ++
            (maskU v0 rest vs).drop (keptU v0 rest vs).length,
          (keptU v0 rest vs).length + 1) ∧
      ptVals h' (p0 :: keptU v0 rest vs) = (v0 :: destut v0 vs).map some ∧
      List.Chain' (· ≠ ·) (v0 :: destut v0 vs) ∧
      (v0 :: destut v0 vs).Sublist (v0 :: vs) ∧
      (List.Chain' (· ≤ ·) (v0 :: vs) →
        (v0 :: destut v0 vs).Nodup ∧ (∀ v, v ∈ v0 :: destut v0 vs ↔ v ∈ v0 :: vs)) ∧
      h'.freed = (ptrAddrs (remPU v0 rest vs)).reverse ++ h.freed ∧
      (ptrAddrs (remPU v0 rest vs)).Nodup ∧
      (∀ p ∈ maskU v0 rest vs, p = none ∨ p ∈ keptU v0 rest vs) := by
  simp only [ptVals_cons, List.map_cons, List.cons.injEq] at hs
  obtain ⟨h0v, hs⟩ := hs
  obtain ⟨h', heq, hkept, -, hfreed, -, -, -⟩ :=
    uniqueLoop_spec rest vs p0 v0 h h0v hs hnd
  refine ⟨fun h0 => rfl, h', ?_, ?_, destut_chain vs v0, (destut_sublist vs v0).cons₂ v0,
    ?_, hfreed, ?_, fun p hp => maskU_mem rest vs v0 p hp⟩
  · rw [Unique_eq_loop, heq]
  · simp only [ptVals_cons, List.map_cons, List.cons.injEq]
    refine ⟨?_, hkept⟩
    obtain ⟨h'2, heq2, -, hrp2, -, -, -, -⟩ := uniqueLoop_spec rest vs p0 v0 h h0v hs hnd
    rw [heq] at heq2
    cases heq2
    exact hrp2
  · intro hch
    refine ⟨destut_nodup_of_sorted vs v0 hch, fun v => ⟨?_, ?_⟩⟩
    · intro hv
      rcases List.mem_cons.mp hv with rfl | hv
      · exact List.mem_cons_self _ _
      · exact List.mem_cons_of_mem _ ((destut_sublist vs v0).mem hv)
    · intro hv
      rcases List.mem_cons.mp hv with rfl | hv
      · exact List.mem_cons_self _ _
      · rcases destut_mem_of_sorted vs v0 hch v hv with rfl | h1
        · exact List.mem_cons_self _ _
        · exact List.mem_cons_of_mem _ h1
  · -- the deleted addresses are pairwise distinct
    have h1 : (ptrAddrs rest).Nodup := by
      cases p0 with
      | none => simpa using hnd
      | some a0 => exact (List.nodup_cons.mp (by simpa using hnd)).2
    exact h1.sublist ((remPU_sublist rest vs v0).filterMap id)

/-- The spec's example: a sorted owned range with pointees `[1, 9, 9]`. -/
def heapU : Heap Nat := ⟨[some 1, some 9, some 9], []⟩

def arrU : List Ptr := [some 0, some 1, some 2]

theorem C4_unique_invariant_witness :
    (ptVals heapU arrU = [1, 9, 9].map some ∧ (ptrAddrs arrU).Nodup) ∧
    ((∀ (h0 : Heap Nat), Unique h0 ([] : List Ptr) = .ok (h0, [], 0)) ∧
    ∃ h', Unique heapU (some 0 :: [some 1, some 2]) =
        .ok (h', (some 0 :: keptU 1 [some 1, some 2] [9, 9]) ++
            (maskU 1 [some 1, some 2] [9, 9]).drop
              (keptU 1 [some 1, some 2] [9, 9]).length,
          (keptU 1 [some 1, some 2] [9, 9]).length + 1) ∧
      ptVals h' (some 0 :: keptU 1 [some 1, some 2] [9, 9]) =
        (1 :: destut 1 [9, 9]).map some ∧
      List.Chain' (· ≠ ·) (1 :: destut 1 [9, 9]) ∧
      (1 :: destut 1 [9, 9]).Sublist [1, 9, 9] ∧
      (List.Chain' (· ≤ ·) [1, 9, 9] →
        (1 :: destut 1 [9, 9]).Nodup ∧
          (∀ v, v ∈ 1 :: destut 1 [9, 9] ↔ v ∈ [1, 9, 9])) ∧
      h'.freed = (ptrAddrs (remPU 1 [some 1, some 2] [9, 9])).reverse ++ heapU.freed ∧
      (ptrAddrs (remPU 1 [some 1, some 2] [9, 9])).Nodup ∧
      (∀ p ∈ maskU 1 [some 1, some 2] [9, 9],
        p = none ∨ p ∈ keptU 1 [some 1, some 2] [9, 9])) :=
  ⟨⟨by decide, by decide⟩,
    C4_unique_invariant heapU (some 0) [some 1, some 2] 1 [9, 9]
      (by decide) (by decide)⟩

/-- Claim C10: after `Remove`, `RemoveIf` or `Unique` return a new end,
    every slot of the trailing region is either the null sentinel or a
    pointer that also appears in the surviving prefix; and the tail is
    not all null in general (a concrete `Remove` run leaves a stale copy
    of a survivor in its tail). -/
theorem C10_tail_region [DecidableEq α] (pred : α → Bool) (h : Heap α) (p0 : Ptr)
    (rest : List Ptr) (v0 : α) (vs : List α) (value : α)
    (hs : ptVals h (p0 :: rest) = (v0 :: vs).map some)
    (hnd : (ptrAddrs (p0 :: rest)).Nodup) :
    (∃ h' arr' m, Remove h (p0 :: rest) value = .ok (h', arr', m) ∧
      ∀ p ∈ arr'.drop m, p = none ∨ p ∈ arr'.take m) ∧
    (∃ h' arr' m, RemoveIf pred h (p0 :: rest) value = .ok (h', arr', m) ∧
      ∀ p ∈ arr'.drop m, p = none ∨ p ∈ arr'.take m) ∧
    (∃ h' arr' m, Unique h (p0 :: rest) = .ok (h', arr', m) ∧
      ∀ p ∈ arr'.drop m, p = none ∨ p ∈ arr'.take m) ∧
    (Remove heapR7 [some 0, some 1] (1 : Nat) =
        .ok (⟨[none, some 2], [0]⟩, [some 1, some 1], 1) ∧
      ([some 1, some 1] : List Ptr).drop 1 = [some 1] ∧ (some 1 : Ptr) ≠ none) := by
  refine ⟨?_, ?_, ?_, by decide, by decide, by decide⟩
  · obtain ⟨h', heq, -, -, -, -, -⟩ :=
      removeIfLoop_spec (eqPred value) (p0 :: rest) (v0 :: vs) h hs hnd
    refine ⟨h', _, _, by rw [Remove_eq_loop, heq], ?_⟩
    intro p hp
    rw [List.drop_left] at hp
    rw [List.take_left]
    exact maskPtrs_mem (eqPred value) (p0 :: rest) (v0 :: vs) p
      (((maskPtrs (eqPred value) (p0 :: rest) (v0 :: vs)).drop_sublist _).mem hp)
  · obtain ⟨h', heq, -, -, -, -, -⟩ :=
      removeIfLoop_spec pred (p0 :: rest) (v0 :: vs) h hs hnd
    refine ⟨h', _, _, by rw [RemoveIf_eq_loop, heq], ?_⟩
    intro p hp
    rw [List.drop_left] at hp
    rw [List.take_left]
    exact maskPtrs_mem pred (p0 :: rest) (v0 :: vs) p
      (((maskPtrs pred (p0 :: rest) (v0 :: vs)).drop_sublist _).mem hp)
  · simp only [ptVals_cons, List.map_cons, List.cons.injEq] at hs
    obtain ⟨h0v, hs'⟩ := hs
    obtain ⟨h', heq, -, -, -, -, -, -⟩ :=
      uniqueLoop_spec rest vs p0 v0 h h0v hs' hnd
    refine ⟨h', _, _, by rw [Unique_eq_loop, heq], ?_⟩
    intro p hp
    rw [show (keptU v0 rest vs).length + 1 = (p0 :: keptU v0 rest vs).length by simp]
      at hp ⊢
    rw [List.drop_left] at hp
    rw [List.take_left]
    rcases maskU_mem rest vs v0 p
        (((maskU v0 rest vs).drop_sublist _).mem hp) with h0 | h1
    · exact Or.inl h0
    · exact Or.inr (List.mem_cons_of_mem _ h1)

theorem C10_tail_region_witness :
    (ptVals heapR (some 0 :: [some 1, some 2, some 3]) = ([1, 9, 9, 2] : List Nat).map some ∧
      (ptrAddrs (some 0 :: [some 1, some 2, some 3])).Nodup) ∧
    ((∃ h' arr' m, Remove heapR (some 0 :: [some 1, some 2, some 3]) 9 =
        .ok (h', arr', m) ∧ ∀ p ∈ arr'.drop m, p = none ∨ p ∈ arr'.take m) ∧
    (∃ h' arr' m, RemoveIf (eqPred 9) heapR (some 0 :: [some 1, some 2, some 3]) 9 =
        .ok (h', arr', m) ∧ ∀ p ∈ arr'.drop m, p = none ∨ p ∈ arr'.take m) ∧
    (∃ h' arr' m, Unique heapR (some 0 :: [some 1, some 2, some 3]) =
        .ok (h', arr', m) ∧ ∀ p ∈ arr'.drop m, p = none ∨ p ∈ arr'.take m) ∧
    (Remove heapR7 [some 0, some 1] (1 : Nat) =
        .ok (⟨[none, some 2], [0]⟩, [some 1, some 1], 1) ∧
      ([some 1, some 1] : List Ptr).drop 1 = [some 1] ∧ (some 1 : Ptr) ≠ none)) :=
  ⟨⟨by decide, by decide⟩,
    C10_tail_region (eqPred 9) heapR (some 0) [some 1, some 2, some 3] 1 [9, 9, 2] 9
      (by decide) (by decide)⟩

/- ### Deep copy (RangeOfPointers.hpp, lines 292-317) and the container
   guard (lines 50-71) -/

/-- The destructor of `raii_ptrs_container_wrapper`: iterates the bound
    container front to back and `delete`s every pointer found. -/
def containerGuardDtor (h : Heap α) (cont : List Ptr) : Heap α :=
  cont.foldl deletePtr h

/-- The `std::transform` loop of `DeepCopyOfRange`: for each source
    pointer, `assert(pLeft != nullptr)`, then `new ValueType(*pLeft)` — a
    fresh allocation holding a copy of the pointee.  `copyOk i v` models
    whether the i-th copy construction succeeds or throws (heap
    exhaustion or a throwing copy constructor); a successful copy holds
    an equal value.  Returns the heap, the container built so far, and
    what stopped the loop, if anything. -/
def deepCopyLoop (copyOk : Nat → α → Bool) :
    Nat → Heap α → List Ptr → Heap α × List Ptr × Option CErr
  | _, h, [] => (h, [], none)
  | i, h, p :: ps =>
    match p with
    | none => (h, [], some .assertFail)
    | some a =>
      match h.read a with
      | none => (h, [], some .ub)
      | some v =>
        if copyOk i v then
          match deepCopyLoop copyOk (i + 1) (h.alloc v).2 ps with
          | (h', rest, e) => (h', some (h.alloc v).1 :: rest, e)
        else (h, [], some .ex)

/-- `DeepCopyOfRange`: builds a fresh container, one new pointer per
    source element, under a container guard.  On success the guard is
    released and the container returned; if a copy construction throws,
    the guard's destructor deletes every pointer already appended before
    the exception propagates; a failed assertion aborts the process, so
    no destructor runs. -/
def DeepCopyOfRange (copyOk : Nat → α → Bool) (h : Heap α) (src : List Ptr) :
    Heap α × Except CErr (List Ptr) :=
  match deepCopyLoop copyOk 0 h src with
  | (h', res, none) => (h', .ok res)
  | (h', res, some .ex) => (containerGuardDtor h' res, .error .ex)
  | (h', _, some e) => (h', .error e)

/-- `DeepCopy(container)` delegates to `DeepCopyOfRange` over the whole
    container. -/
def DeepCopy (copyOk : Nat → α → Bool) (h : Heap α) (cont : List Ptr) :
    Heap α × Except CErr (List Ptr) :=
  DeepCopyOfRange copyOk h cont

theorem containerGuardDtor_spec :
    ∀ (addrs : List Addr) (h : Heap α),
      (containerGuardDtor h (addrs.map some)).freed = addrs.reverse ++ h.freed ∧
      (∀ a ∈ addrs, (containerGuardDtor h (addrs.map some)).read a = none) ∧
      (∀ a, a ∉ addrs → (containerGuardDtor h (addrs.map some)).read a = h.read a) := by
  intro addrs
  induction addrs with
  | nil => exact fun h => ⟨rfl, fun a ha => absurd ha (List.not_mem_nil a), fun a _ => rfl⟩
  | cons b addrs ih =>
    intro h
    have hstep : containerGuardDtor h ((b :: addrs).map some) =
        containerGuardDtor (deletePtr h (some b)) (addrs.map some) := rfl
    obtain ⟨hfr, hnone, hframe⟩ := ih (deletePtr h (some b))
    refine ⟨?_, ?_, ?_⟩
    · rw [hstep, hfr]
      simp [deletePtr]
    · intro a ha
      rcases List.mem_cons.mp ha with rfl | ha
      · by_cases hmem : a ∈ addrs
        · rw [hstep]; exact hnone a hmem
        · rw [hstep, hframe a hmem, read_delete_self]
      · rw [hstep]; exact hnone a ha
    · intro a ha
      simp only [List.mem_cons] at ha
      push_neg at ha
      rw [hstep, hframe a ha.2, read_delete_ne h (fun he => ha.1 he.symm)]

theorem ptVals_frame {h h' : Heap α} :
    ∀ {ps : List Ptr} {qs : List α}, ptVals h ps = qs.map some →
      (∀ a, a < h.store.length → h'.read a = h.read a) →
      ptVals h' ps = qs.map some := by
  intro ps
  induction ps with
  | nil =>
    intro qs hs _
    cases qs with
    | nil => rfl
    | cons q qs => simp at hs
  | cons p ps ih =>
    intro qs hs hfr
    cases qs with
    | nil => simp at hs
    | cons q qs =>
      simp only [ptVals_cons, List.map_cons, List.cons.injEq] at hs ⊢
      obtain ⟨hpv, hs⟩ := hs
      obtain ⟨pa, rfl, hpalt⟩ := ptVal_lt_length hpv
      refine ⟨?_, ih hs hfr⟩
      show h'.read pa = some q
      rw [hfr pa hpalt]
      exact hpv

/-- Success run of the transform loop: every copy succeeds, one fresh
    pointer per source element, pointees equal to the source pointees,
    nothing deleted, existing objects untouched. -/
theorem deepCopyLoop_ok (copyOk : Nat → α → Bool) :
    ∀ (src : List Ptr) (vs : List α) (h : Heap α) (i : Nat),
      ptVals h src = vs.map some →
      (∀ j v', vs[j]? = some v' → copyOk (i + j) v' = true) →
      ∃ h', deepCopyLoop copyOk i h src =
          (h', (List.range src.length).map (fun j => (some (h.store.length + j) : Ptr)),
            none) ∧
        ptVals h' ((List.range src.length).map fun j => (some (h.store.length + j) : Ptr))
          = vs.map some ∧
        h'.freed = h.freed ∧
        h'.store.length = h.store.length + src.length ∧
        (∀ a, a < h.store.length → h'.read a = h.read a) := by
  intro src
  induction src with
  | nil =>
    intro vs h i hs _
    cases vs with
    | nil => exact ⟨h, by simp [deepCopyLoop], by simp, rfl, by simp, fun a _ => rfl⟩
    | cons v vs => simp at hs
  | cons p ps ih =>
    intro vs h i hs hok
    cases vs with
    | nil => simp at hs
    | cons v vs =>
      simp only [ptVals_cons, List.map_cons, List.cons.injEq] at hs
      obtain ⟨hpv, hs⟩ := hs
      obtain ⟨pa, rfl, hpalt⟩ := ptVal_lt_length hpv
      rw [show ptVal h (some pa) = h.read pa from rfl] at hpv
      have hc0 : copyOk i v = true := by
        have := hok 0 v (by simp)
        simpa using this
      have hs1 : ptVals (h.alloc v).2 ps = vs.map some := ptVals_alloc v hs
      have hok1 : ∀ j v', vs[j]? = some v' → copyOk (i + 1 + j) v' = true := by
        intro j v' hv'
        have := hok (j + 1) v' (by simpa using hv')
        rw [show i + 1 + j = i + (j + 1) by omega]
        exact this
      obtain ⟨h', heq, hfresh, hfreed, hsl, hframe⟩ := ih vs (h.alloc v).2 (i + 1) hs1 hok1
      have hlen1 : (h.alloc v).2.store.length = h.store.length + 1 := alloc_store_length h v
      simp only [hlen1] at hfresh heq hsl hframe
      refine ⟨h', ?_, ?_, hfreed, ?_, ?_⟩
      · rw [deepCopyLoop, hpv]
        simp only [hc0, if_true, heq, List.length_cons, fresh_range_shift]
        rfl
      · simp only [List.length_cons, fresh_range_shift, ptVals_cons, List.map_cons,
          List.cons.injEq]
        refine ⟨?_, hfresh⟩
        show h'.read h.store.length = some v
        rw [hframe h.store.length (Nat.lt_succ_self _)]
        exact Heap.read_alloc_fresh h v
      · simp only [List.length_cons]; omega
      · intro a ha
        rw [hframe a (Nat.lt_succ_of_lt ha), Heap.read_alloc_lt v ha]

/-- Failing run of the transform loop: the first `k` copies succeed and
    the `k`-th (0-based) throws; the loop stops with the exception, the
    container holds the `k` fresh pointers already constructed, and no
    deletion has happened yet. -/
theorem deepCopyLoop_fail (copyOk : Nat → α → Bool) :
    ∀ (src : List Ptr) (vs : List α) (h : Heap α) (i k : Nat),
      ptVals h src = vs.map some →
      k < vs.length →
      (∀ j v', j < k → vs[j]? = some v' → copyOk (i + j) v' = true) →
      (∀ vk, vs[k]? = some vk → copyOk (i + k) vk = false) →
      ∃ h', deepCopyLoop copyOk i h src =
          (h', (List.range k).map (fun j => (some (h.store.length + j) : Ptr)),
            some .ex) ∧
        h'.freed = h.freed ∧
        h'.store.length = h.store.length + k ∧
        (∀ a, a < h.store.length → h'.read a = h.read a) := by
  intro src
  induction src with
  | nil =>
    intro vs h i k hs hk _ _
    cases vs with
    | nil => simp at hk
    | cons v vs => simp at hs
  | cons p ps ih =>
    intro vs h i k hs hk hok hbad
    cases vs with
    | nil => simp at hs
    | cons v vs =>
      simp only [ptVals_cons, List.map_cons, List.cons.injEq] at hs
      obtain ⟨hpv, hs⟩ := hs
      obtain ⟨pa, rfl, hpalt⟩ := ptVal_lt_length hpv
      rw [show ptVal h (some pa) = h.read pa from rfl] at hpv
      cases k with
      | zero =>
        have hc0 : copyOk i v = false := by
          have := hbad v (by simp)
          simpa using this
        refine ⟨h, ?_, rfl, by simp, fun a _ => rfl⟩
        rw [deepCopyLoop, hpv]
        simp [hc0]
      | succ k =>
        have hc0 : copyOk i v = true := by
          have := hok 0 v (Nat.succ_pos k) (by simp)
          simpa using this
        have hs1 : ptVals (h.alloc v).2 ps = vs.map some := ptVals_alloc v hs
        have hok1 : ∀ j v', j < k → vs[j]? = some v' → copyOk (i + 1 + j) v' = true := by
          intro j v' hj hv'
          have := hok (j + 1) v' (Nat.succ_lt_succ hj) (by simpa using hv')
          rw [show i + 1 + j = i + (j + 1) by omega]
          exact this
        have hbad1 : ∀ vk, vs[k]? = some vk → copyOk (i + 1 + k) vk = false := by
          intro vk hvk
          have := hbad vk (by simpa using hvk)
          rw [show i + 1 + k = i + (k + 1) by omega]
          exact this
        obtain ⟨h', heq, hfreed, hsl, hframe⟩ :=
          ih vs (h.alloc v).2 (i + 1) k hs1 (by simpa using Nat.lt_of_succ_lt_succ hk)
            hok1 hbad1
        have hlen1 : (h.alloc v).2.store.length = h.store.length + 1 := alloc_store_length h v
        simp only [hlen1] at heq hsl hframe
        refine ⟨h', ?_, hfreed, ?_, ?_⟩
        · rw [deepCopyLoop, hpv]
          simp only [hc0, if_true, heq, fresh_range_shift]
          rfl
        · omega
        · intro a ha
          rw [hframe a (Nat.lt_succ_of_lt ha), Heap.read_alloc_lt v ha]

theorem fresh_map_some (L k : Nat) :
    (List.range k).map (fun j => (some (L + j) : Ptr)) =
      ((List.range k).map (L + ·)).map some := by
  rw [List.map_map]
  rfl

theorem mem_of_live {h : Heap α} :
    ∀ {ps : List Ptr} {qs : List α}, ptVals h ps = qs.map some →
      ∀ p ∈ ps, ∃ a, p = some a ∧ a < h.store.length := by
  intro ps
  induction ps with
  | nil => intro qs _ p hp; simp at hp
  | cons q ps ih =>
    intro qs hs p hp
    cases qs with
    | nil => simp at hs
    | cons w ws =>
      simp only [ptVals_cons, List.map_cons, List.cons.injEq] at hs
      rcases List.mem_cons.mp hp with rfl | hp
      · exact ptVal_lt_length hs.1
      · exact ih hs.2 p hp

/-- Claim C2: if the `k`-th copy construction of a deep copy throws, the
    container guard deletes each of the `k` previously constructed
    pointers exactly once before the exception propagates and no
    container is returned, with nothing else touched; and when every copy
    construction succeeds, the guard is released (nothing is deleted) and
    the populated container — one new pointer per source element, with
    pointees equal to the source's — is returned. -/
theorem C2_guard_safety (copyOk : Nat → α → Bool) (h : Heap α) (src : List Ptr)
    (vs : List α) (k : Nat)
    (hs : ptVals h src = vs.map some)
    (hk : k < vs.length)
    (hok : ∀ j v', j < k → vs[j]? = some v' → copyOk j v' = true)
    (hbad : ∀ vk, vs[k]? = some vk → copyOk k vk = false) :
    (∃ hF, DeepCopyOfRange copyOk h src = (hF, .error .ex) ∧
      hF.freed = ((List.range k).map (h.store.length + ·)).reverse ++ h.freed ∧
      ((List.range k).map (h.store.length + ·)).Nodup ∧
      (∀ j, j < k → hF.read (h.store.length + j) = none) ∧
      (∀ a, a < h.store.length → hF.read a = h.read a)) ∧
    (∀ copyOk2 : Nat → α → Bool, (∀ j v', vs[j]? = some v' → copyOk2 j v' = true) →
      ∃ hS ptrs, DeepCopyOfRange copyOk2 h src = (hS, .ok ptrs) ∧
        ptrs.length = src.length ∧
        ptVals hS ptrs = vs.map some ∧
        hS.freed = h.freed) := by
  constructor
  · obtain ⟨h', heq, hfreed, hsl, hframe⟩ :=
      deepCopyLoop_fail copyOk src vs h 0 k hs hk
        (fun j v' hj hv' => by simpa using hok j v' hj hv')
        (fun vk hvk => by simpa using hbad vk hvk)
    obtain ⟨hgfr, hgnone, hgframe⟩ :=
      containerGuardDtor_spec ((List.range k).map (h.store.length + ·)) h'
    have hnd : ((List.range k).map (h.store.length + ·)).Nodup :=
      (List.nodup_range k).map (fun _ _ hab => Nat.add_left_cancel hab)
    refine ⟨containerGuardDtor h' ((List.range k).map (fun j => (some (h.store.length + j) : Ptr))),
      ?_, ?_, hnd, ?_, ?_⟩
    · rw [DeepCopyOfRange, heq]
    · rw [fresh_map_some, hgfr, hfreed]
    · intro j hj
      rw [fresh_map_some]
      exact hgnone _ (List.mem_map_of_mem _ (List.mem_range.mpr hj))
    · intro a ha
      rw [fresh_map_some, hgframe a ?_, hframe a ha]
      intro hmem
      obtain ⟨j, -, hj⟩ := List.mem_map.mp hmem
      have hj2 : h.store.length + j = a := hj
      rw [← hj2] at ha
      exact absurd ha (Nat.not_lt.mpr (Nat.le_add_right _ _))
  · intro copyOk2 hok2
    obtain ⟨h', heq, hfresh, hfreed, hsl, hframe⟩ :=
      deepCopyLoop_ok copyOk2 src vs h 0 hs
        (fun j v' hv' => by simpa using hok2 j v' hv')
    refine ⟨h', _, ?_, by simp, hfresh, hfreed⟩
    rw [DeepCopyOfRange, heq]

/-- A concrete source for the deep-copy claims: pointees `[4, 5, 6]`. -/
def heapD : Heap Nat := ⟨[some 4, some 5, some 6], []⟩

def srcD : List Ptr := [some 0, some 1, some 2]

/-- A simulated copy constructor that throws on the third element. -/
def copyOkW : Nat → Nat → Bool := fun i _ => decide (i < 2)

theorem C2_guard_safety_witness :
    (ptVals heapD srcD = [4, 5, 6].map some ∧ (2 : Nat) < ([4, 5, 6] : List Nat).length ∧
      (∀ j v', j < 2 → ([4, 5, 6] : List Nat)[j]? = some v' → copyOkW j v' = true) ∧
      (∀ vk, ([4, 5, 6] : List Nat)[2]? = some vk → copyOkW 2 vk = false)) ∧
    ((∃ hF, DeepCopyOfRange copyOkW heapD srcD = (hF, .error .ex) ∧
      hF.freed = ((List.range 2).map (heapD.store.length + ·)).reverse ++ heapD.freed ∧
      ((List.range 2).map (heapD.store.length + ·)).Nodup ∧
      (∀ j, j < 2 → hF.read (heapD.store.length + j) = none) ∧
      (∀ a, a < heapD.store.length → hF.read a = heapD.read a)) ∧
    (∀ copyOk2 : Nat → Nat → Bool,
      (∀ j v', ([4, 5, 6] : List Nat)[j]? = some v' → copyOk2 j v' = true) →
      ∃ hS ptrs, DeepCopyOfRange copyOk2 heapD srcD = (hS, .ok ptrs) ∧
        ptrs.length = srcD.length ∧
        ptVals hS ptrs = [4, 5, 6].map some ∧
        hS.freed = heapD.freed)) :=
  ⟨⟨by decide, by decide,
      fun j v' hj hv' => by
        interval_cases j <;> simp_all [copyOkW],
      fun vk hvk => by
        simp only [List.getElem?_cons_succ, List.getElem?_cons_zero,
          Option.some.injEq] at hvk
        subst hvk
        rfl⟩,
    C2_guard_safety copyOkW heapD srcD [4, 5, 6] 2 (by decide) (by decide)
      (fun j v' hj hv' => by interval_cases j <;> simp_all [copyOkW])
      (fun vk hvk => by
        simp only [List.getElem?_cons_succ, List.getElem?_cons_zero,
          Option.some.injEq] at hvk
        subst hvk
        rfl)⟩

/-- Claim C6: `DeepCopy` returns a container of the same length whose
    pointee at each position equals the source pointee at that position
    (both pointee sequences equal `vs`), through pointers all distinct
    from every pointer of the source container. -/
theorem C6_deep_copy (copyOk : Nat → α → Bool) (h : Heap α) (cont : List Ptr)
    (vs : List α)
    (hs : ptVals h cont = vs.map some)
    (hok : ∀ j v', vs[j]? = some v' → copyOk j v' = true) :
    ∃ h' ptrs, DeepCopy copyOk h cont = (h', .ok ptrs) ∧
      ptrs.length = cont.length ∧
      ptVals h' ptrs = vs.map some ∧
      ptVals h' cont = vs.map some ∧
      (∀ p ∈ ptrs, ∀ q ∈ cont, p ≠ q) := by
  obtain ⟨h', heq, hfresh, hfreed, hsl, hframe⟩ :=
    deepCopyLoop_ok copyOk cont vs h 0 hs
      (fun j v' hv' => by simpa using hok j v' hv')
  refine ⟨h', _, ?_, by simp, hfresh, ptVals_frame hs hframe, ?_⟩
  · rw [DeepCopy, DeepCopyOfRange, heq]
  · intro p hp q hq
    obtain ⟨j, -, hj⟩ := List.mem_map.mp hp
    obtain ⟨aq, rfl, haq⟩ := mem_of_live hs q hq
    rw [← hj]
    intro he
    have h2 : h.store.length + j = aq := by simpa using he
    rw [← h2] at haq
    exact absurd haq (Nat.not_lt.mpr (Nat.le_add_right _ _))

theorem C6_deep_copy_witness :
    (ptVals heapD srcD = [4, 5, 6].map some ∧
      (∀ (j v' : Nat), ([4, 5, 6] : List Nat)[j]? = some v' →
        (fun (_ : Nat) (_ : Nat) => true) j v' = true)) ∧
    (∃ h' ptrs, DeepCopy (fun (_ : Nat) (_ : Nat) => true) heapD srcD = (h', .ok ptrs) ∧
      ptrs.length = srcD.length ∧
      ptVals h' ptrs = [4, 5, 6].map some ∧
      ptVals h' srcD = [4, 5, 6].map some ∧
      (∀ p ∈ ptrs, ∀ q ∈ srcD, p ≠ q)) :=
  ⟨⟨by decide, by intro j v' _; rfl⟩,
    C6_deep_copy (fun (_ : Nat) (_ : Nat) => true) heapD srcD [4, 5, 6] (by decide)
      (by intro j v' _; rfl)⟩

/- ### The scoped range guard (RangeOfPointers.hpp, lines 13-47) -/

/-- `raii_ptrs_range_wrapper`: holds the two iterators of the guarded
    range, as offsets into the underlying slot sequence. -/
structure raii_ptrs_range_wrapper where
  first_ : Nat
  last_ : Nat

/-- `release()`: `first_ = last_; return last_;` — collapses the held
    range to empty and returns the end marker. -/
def rangeRelease (g : raii_ptrs_range_wrapper) : raii_ptrs_range_wrapper × Nat :=
  ({ first_ := g.last_, last_ := g.last_ }, g.last_)

/-- The loop of the destructor
    `for (; first_ != last_; ++first_) delete(*first_);` — one `delete`
    per slot of the held range, from the current start to the end (no
    iteration when the range is already empty). -/
def rangeDtorLoop (slots : List Ptr) : Nat → Nat → Heap α → Heap α
  | 0, _, h => h
  | gas + 1, first, h =>
    rangeDtorLoop slots gas (first + 1) (deletePtr h (slots.getD first none))

/-- The destructor of `raii_ptrs_range_wrapper` over the sequence the
    iterators point into. -/
def rangeDtor (g : raii_ptrs_range_wrapper) (slots : List Ptr) (h : Heap α) : Heap α :=
  rangeDtorLoop slots (g.last_ - g.first_) g.first_ h

theorem getD_lt (l : List (Option α)) {a : Nat} (ha : a < l.length) :
    l.getD a none = l[a] := by
  induction l generalizing a with
  | nil => simp at ha
  | cons x xs ih =>
    cases a with
    | zero => simp [List.getD]
    | succ n =>
      simp only [List.getD_cons_succ, List.getElem_cons_succ]
      exact ih (Nat.lt_of_succ_lt_succ ha)

theorem rangeDtorLoop_spec :
    ∀ (gas first : Nat) (slots : List Ptr) (h : Heap α),
      (rangeDtorLoop slots gas first h).freed =
        (ptrAddrs ((slots.drop first).take gas)).reverse ++ h.freed ∧
      (∀ a ∈ ptrAddrs ((slots.drop first).take gas),
        (rangeDtorLoop slots gas first h).read a = none) ∧
      (∀ a, a ∉ ptrAddrs ((slots.drop first).take gas) →
        (rangeDtorLoop slots gas first h).read a = h.read a) := by
  intro gas
  induction gas with
  | zero =>
    intro first slots h
    exact ⟨rfl, fun a ha => by simp at ha, fun a _ => rfl⟩
  | succ gas ih =>
    intro first slots h
    by_cases hf : first < slots.length
    · have hregion : (slots.drop first).take (gas + 1) =
          slots[first] :: (slots.drop (first + 1)).take gas := by
        rw [drop_eq_cons_self slots hf, List.take_succ_cons]
      have hget : slots.getD first none = slots[first] := getD_lt slots hf
      have hstep : rangeDtorLoop slots (gas + 1) first h =
          rangeDtorLoop slots gas (first + 1) (deletePtr h slots[first]) := by
        rw [rangeDtorLoop, hget]
      obtain ⟨hfr, hnone, hframe⟩ := ih (first + 1) slots (deletePtr h slots[first])
      cases hp0 : slots[first] with
      | none =>
        rw [hp0] at hfr hnone hframe hstep
        refine ⟨?_, ?_, ?_⟩
        · rw [hstep, hfr, hregion, hp0]
          simp [deletePtr]
        · intro a ha
          rw [hregion, hp0, ptrAddrs_cons_none] at ha
          rw [hstep]
          exact hnone a ha
        · intro a ha
          rw [hregion, hp0, ptrAddrs_cons_none] at ha
          rw [hstep]
          exact hframe a ha
      | some b =>
        rw [hp0] at hfr hnone hframe hstep
        refine ⟨?_, ?_, ?_⟩
        · rw [hstep, hfr, hregion, hp0]
          simp [deletePtr]
        · intro a ha
          rw [hregion, hp0, ptrAddrs_cons_some] at ha
          rw [hstep]
          rcases List.mem_cons.mp ha with rfl | ha
          · by_cases hmem : a ∈ ptrAddrs ((slots.drop (first + 1)).take gas)
            · exact hnone a hmem
            · rw [hframe a hmem, read_delete_self]
          · exact hnone a ha
        · intro a ha
          rw [hregion, hp0, ptrAddrs_cons_some] at ha
          simp only [List.mem_cons] at ha
          push_neg at ha
          rw [hstep, hframe a ha.2, read_delete_ne h (fun he => ha.1 he.symm)]
    · have hdrop : slots.drop first = [] :=
        List.drop_eq_nil_of_le (Nat.le_of_not_lt hf)
    -- out-of-range iterators: every getD yields the null pointer, a no-op
      have hget : slots.getD first none = none :=
        getD_eq_none_of_ge slots (Nat.le_of_not_lt hf)
      have hstep : rangeDtorLoop slots (gas + 1) first h =
          rangeDtorLoop slots gas (first + 1) h := by
        rw [rangeDtorLoop, hget]
        rfl
      obtain ⟨hfr, hnone, hframe⟩ := ih (first + 1) slots h
      have hdrop1 : slots.drop (first + 1) = [] :=
        List.drop_eq_nil_of_le (by omega)
      rw [hdrop1] at hfr hnone hframe
      rw [hdrop]
      refine ⟨?_, ?_, ?_⟩
      · rw [hstep, hfr]
        simp
      · intro a ha
        simp at ha
      · intro a _
        rw [hstep, hframe a (by simp)]

/-- Claim C9: `release()` collapses the guarded range to the empty range
    at the end marker and returns that marker, and destruction after a
    release deletes nothing; destruction without a release deletes, from
    the current start to the end, exactly the pointers in the held range
    (journaling their addresses in scan order) and touches nothing
    else. -/
theorem C9_range_guard (g : raii_ptrs_range_wrapper) (slots : List Ptr) (h : Heap α) :
    (rangeRelease g).2 = g.last_ ∧
    (rangeRelease g).1.first_ = (rangeRelease g).1.last_ ∧
    (∀ (h2 : Heap α), rangeDtor (rangeRelease g).1 slots h2 = h2) ∧
    (rangeDtor g slots h).freed =
      (ptrAddrs ((slots.drop g.first_).take (g.last_ - g.first_))).reverse ++ h.freed ∧
    (∀ a ∈ ptrAddrs ((slots.drop g.first_).take (g.last_ - g.first_)),
      (rangeDtor g slots h).read a = none) ∧
    (∀ a, a ∉ ptrAddrs ((slots.drop g.first_).take (g.last_ - g.first_)) →
      (rangeDtor g slots h).read a = h.read a) := by
  obtain ⟨hfr, hnone, hframe⟩ :=
    rangeDtorLoop_spec (g.last_ - g.first_) g.first_ slots h
  exact ⟨rfl, rfl, fun h2 => by simp [rangeDtor, rangeRelease, rangeDtorLoop],
    hfr, hnone, hframe⟩

theorem C9_range_guard_witness :
    ((rangeRelease ⟨0, 2⟩).2 = (2 : Nat) ∧
    (rangeRelease ⟨0, 2⟩).1.first_ = (rangeRelease ⟨0, 2⟩).1.last_ ∧
    (∀ (h2 : Heap Nat), rangeDtor (rangeRelease ⟨0, 2⟩).1 [some 0, some 1] h2 = h2) ∧
    (rangeDtor ⟨0, 2⟩ [some 0, some 1] (⟨[some 5, some 6], []⟩ : Heap Nat)).freed =
      (ptrAddrs ((([some 0, some 1] : List Ptr).drop 0).take (2 - 0))).reverse ++
        (⟨[some 5, some 6], []⟩ : Heap Nat).freed ∧
    (∀ a ∈ ptrAddrs ((([some 0, some 1] : List Ptr).drop 0).take (2 - 0)),
      (rangeDtor ⟨0, 2⟩ [some 0, some 1] (⟨[some 5, some 6], []⟩ : Heap Nat)).read a = none) ∧
    (∀ a, a ∉ ptrAddrs ((([some 0, some 1] : List Ptr).drop 0).take (2 - 0)) →
      (rangeDtor ⟨0, 2⟩ [some 0, some 1] (⟨[some 5, some 6], []⟩ : Heap Nat)).read a =
        (⟨[some 5, some 6], []⟩ : Heap Nat).read a)) :=
  C9_range_guard ⟨0, 2⟩ [some 0, some 1] ⟨[some 5, some 6], []⟩

/- ### Which algorithms guard their dereferences with assertions (C8) -/

/-- A pointer that is either null or points to a live object — the only
    states a well-formed owned slot can be in (no dangling pointers). -/
def nullOrLive (h : Heap α) (p : Ptr) : Bool :=
  match p with
  | none => true
  | some a => (h.read a).isSome

theorem nullOrLive_write {h : Heap α} {p : Ptr} (a : Addr) (v : α)
    (hp : nullOrLive h p = true) : nullOrLive (h.write a v) p = true := by
  cases p with
  | none => rfl
  | some b =>
    simp only [nullOrLive] at hp ⊢
    by_cases hab : a = b
    · subst hab
      obtain ⟨w, hw⟩ := Option.isSome_iff_exists.mp hp
      rw [Heap.read_write_self v hw]
      rfl
    · rw [Heap.read_write_ne h v hab]
      exact hp

theorem nullOrLive_alloc {h : Heap α} {p : Ptr} (v : α)
    (hp : nullOrLive h p = true) : nullOrLive (h.alloc v).2 p = true := by
  cases p with
  | none => rfl
  | some b =>
    simp only [nullOrLive] at hp ⊢
    obtain ⟨w, hw⟩ := Option.isSome_iff_exists.mp hp
    rw [Heap.read_alloc_old v hw]
    rfl

theorem nullOrLive_delete {h : Heap α} {p : Ptr} {a : Addr}
    (hne : ∀ b, p = some b → b ≠ a)
    (hp : nullOrLive h p = true) : nullOrLive (deletePtr h (some a)) p = true := by
  cases p with
  | none => rfl
  | some b =>
    simp only [nullOrLive] at hp ⊢
    rw [read_delete_ne h (Ne.symm (hne b rfl))]
    exact hp

theorem readPtr_ok_of_live {h : Heap α} {sa : Addr}
    (hp : nullOrLive h (some sa) = true) : ∃ v, readPtr h (some sa) = .ok v := by
  simp only [nullOrLive] at hp
  obtain ⟨v, hv⟩ := Option.isSome_iff_exists.mp hp
  exact ⟨v, by simp [readPtr, ptVal, hv]⟩

theorem writePtr_ok_of_live {h : Heap α} {da : Addr} (v : α)
    (hp : nullOrLive h (some da) = true) :
    writePtr h (some da) v = .ok (h.write da v) := by
  simp only [nullOrLive] at hp
  obtain ⟨w, hw⟩ := Option.isSome_iff_exists.mp hp
  simp [writePtr, hw]

/-- `Copy` asserts both pointers before every dereference: over slots
    that are null or live, it never runs into undefined behaviour — a
    null pointer stops it at the assertion instead. -/
theorem Copy_no_ub :
    ∀ (src dst : List Ptr) (h : Heap α),
      (∀ p ∈ src ++ dst, nullOrLive h p = true) →
      src.length ≤ dst.length →
      Copy h src dst ≠ .error .ub := by
  intro src
  induction src with
  | nil => intro dst h _ _; simp [Copy]
  | cons s src ih =>
    intro dst h hnl hlen
    cases dst with
    | nil => simp at hlen
    | cons d dst =>
      cases d with
      | none =>
        have he : Copy h (s :: src) ((none : Ptr) :: dst) = .error .assertFail := by
          simp [Copy, cassert]
        rw [he]
        simp
      | some da =>
        cases s with
        | none =>
          have he : Copy h ((none : Ptr) :: src) (some da :: dst) =
              .error .assertFail := by
            simp [Copy, cassert]
          rw [he]
          simp
        | some sa =>
          have hnlS : nullOrLive h (some sa) = true := hnl _ (by simp)
          have hnlD : nullOrLive h (some da) = true := hnl _ (by simp)
          obtain ⟨v, hrv⟩ := readPtr_ok_of_live hnlS
          have hw := writePtr_ok_of_live v hnlD
          intro hc
          simp only [Copy, cassert_some, exc_bind_ok, hrv, hw] at hc
          cases hrec : Copy (h.write da v) src dst with
          | ok t =>
            rw [hrec] at hc
            obtain ⟨h'', dst', n⟩ := t
            simp at hc
          | error e =>
            rw [hrec] at hc
            simp only [exc_bind_error, Except.error.injEq] at hc
            subst hc
            refine ih dst (h.write da v) ?_ (Nat.le_of_succ_le_succ hlen) hrec
            intro p hp
            refine nullOrLive_write da v (hnl p ?_)
            simp only [List.cons_append, List.mem_cons, List.mem_append] at hp ⊢
            tauto

/-- `ReplaceCopy` asserts both pointers before every dereference. -/
theorem ReplaceCopy_no_ub :
    ∀ (src dst : List Ptr) (h : Heap α),
      (∀ p ∈ src ++ dst, nullOrLive h p = true) →
      src.length ≤ dst.length →
      ReplaceCopy h src dst ≠ .error .ub := by
  intro src
  induction src with
  | nil => intro dst h _ _; simp [ReplaceCopy]
  | cons s src ih =>
    intro dst h hnl hlen
    cases dst with
    | nil => simp at hlen
    | cons d dst =>
      cases d with
      | none =>
        have he : ReplaceCopy h (s :: src) ((none : Ptr) :: dst) = .error .assertFail := by
          simp [ReplaceCopy, cassert]
        rw [he]
        simp
      | some da =>
        cases s with
        | none =>
          have he : ReplaceCopy h ((none : Ptr) :: src) (some da :: dst) =
              .error .assertFail := by
            simp [ReplaceCopy, cassert]
          rw [he]
          simp
        | some sa =>
          have hnlS : nullOrLive h (some sa) = true := hnl _ (by simp)
          have hnlD : nullOrLive h (some da) = true := hnl _ (by simp)
          obtain ⟨v, hrv⟩ := readPtr_ok_of_live hnlS
          have hw := writePtr_ok_of_live v hnlD
          intro hc
          simp only [ReplaceCopy, cassert_some, exc_bind_ok, hrv, hw] at hc
          cases hrec : ReplaceCopy (h.write da v) src dst with
          | ok t =>
            rw [hrec] at hc
            obtain ⟨h'', dst', n⟩ := t
            simp at hc
          | error e =>
            rw [hrec] at hc
            simp only [exc_bind_error, Except.error.injEq] at hc
            subst hc
            refine ih dst (h.write da v) ?_ (Nat.le_of_succ_le_succ hlen) hrec
            intro p hp
            refine nullOrLive_write da v (hnl p ?_)
            simp only [List.cons_append, List.mem_cons, List.mem_append] at hp ⊢
            tauto

/-- `CopyIf` asserts both pointers before every dereference, for every
    scanned element whether or not the predicate holds. -/
theorem CopyIf_no_ub (pred : α → Bool) :
    ∀ (src dst : List Ptr) (h : Heap α),
      (∀ p ∈ src ++ dst, nullOrLive h p = true) →
      src.length ≤ dst.length →
      CopyIf pred h src dst ≠ .error .ub := by
  intro src
  induction src with
  | nil => intro dst h _ _; simp [CopyIf]
  | cons s src ih =>
    intro dst h hnl hlen
    cases dst with
    | nil => simp at hlen
    | cons d dst =>
      cases d with
      | none =>
        have he : CopyIf pred h (s :: src) ((none : Ptr) :: dst) = .error .assertFail := by
          simp [CopyIf, cassert]
        rw [he]
        simp
      | some da =>
        cases s with
        | none =>
          have he : CopyIf pred h ((none : Ptr) :: src) (some da :: dst) =
              .error .assertFail := by
            simp [CopyIf, cassert]
          rw [he]
          simp
        | some sa =>
          have hnlS : nullOrLive h (some sa) = true := hnl _ (by simp)
          have hnlD : nullOrLive h (some da) = true := hnl _ (by simp)
          obtain ⟨v, hrv⟩ := readPtr_ok_of_live hnlS
          intro hc
          simp only [CopyIf, cassert_some, exc_bind_ok, hrv] at hc
          by_cases hpv : pred v
          · have hw := writePtr_ok_of_live v hnlD
            simp only [hpv, if_true, hw, exc_bind_ok] at hc
            cases hrec : CopyIf pred (h.write da v) src dst with
            | ok t =>
              rw [hrec] at hc
              obtain ⟨h'', dst', n⟩ := t
              simp at hc
            | error e =>
              rw [hrec] at hc
              simp only [exc_bind_error, Except.error.injEq] at hc
              subst hc
              refine ih dst (h.write da v) ?_ (Nat.le_of_succ_le_succ hlen) hrec
              intro p hp
              refine nullOrLive_write da v (hnl p ?_)
              simp only [List.cons_append, List.mem_cons, List.mem_append] at hp ⊢
              tauto
          · simp only [hpv, if_false, Bool.false_eq_true] at hc
            cases hrec : CopyIf pred h src (some da :: dst) with
            | ok t =>
              rw [hrec] at hc
              obtain ⟨h'', dst', n⟩ := t
              simp at hc
            | error e =>
              rw [hrec] at hc
              simp only [exc_bind_error, Except.error.injEq] at hc
              subst hc
              refine ih (some da :: dst) h ?_
                (Nat.le_succ_of_le (Nat.le_of_succ_le_succ hlen)) hrec
              intro p hp
              refine hnl p ?_
              simp only [List.cons_append, List.mem_cons, List.mem_append] at hp ⊢
              tauto

/-- `ReplaceCopyIf` asserts both pointers before every dereference, for
    every scanned element whether or not the predicate holds. -/
theorem ReplaceCopyIf_no_ub (pred : α → Bool) :
    ∀ (src dst : List Ptr) (h : Heap α),
      (∀ p ∈ src ++ dst, nullOrLive h p = true) →
      src.length ≤ dst.length →
      ReplaceCopyIf pred h src dst ≠ .error .ub := by
  intro src
  induction src with
  | nil => intro dst h _ _; simp [ReplaceCopyIf]
  | cons s src ih =>
    intro dst h hnl hlen
    cases dst with
    | nil => simp at hlen
    | cons d dst =>
      cases d with
      | none =>
        have he : ReplaceCopyIf pred h (s :: src) ((none : Ptr) :: dst) =
            .error .assertFail := by
          simp [ReplaceCopyIf, cassert]
        rw [he]
        simp
      | some da =>
        cases s with
        | none =>
          have he : ReplaceCopyIf pred h ((none : Ptr) :: src) (some da :: dst) =
              .error .assertFail := by
            simp [ReplaceCopyIf, cassert]
          rw [he]
          simp
        | some sa =>
          have hnlS : nullOrLive h (some sa) = true := hnl _ (by simp)
          have hnlD : nullOrLive h (some da) = true := hnl _ (by simp)
          obtain ⟨v, hrv⟩ := readPtr_ok_of_live hnlS
          intro hc
          simp only [ReplaceCopyIf, cassert_some, exc_bind_ok, hrv] at hc
          by_cases hpv : pred v
          · have hw := writePtr_ok_of_live v hnlD
            simp only [hpv, if_true, hw, exc_bind_ok] at hc
            cases hrec : ReplaceCopyIf pred (h.write da v) src dst with
            | ok t =>
              rw [hrec] at hc
              obtain ⟨h'', dst', n⟩ := t
              simp at hc
            | error e =>
              rw [hrec] at hc
              simp only [exc_bind_error, Except.error.injEq] at hc
              subst hc
              refine ih dst (h.write da v) ?_ (Nat.le_of_succ_le_succ hlen) hrec
              intro p hp
              refine nullOrLive_write da v (hnl p ?_)
              simp only [List.cons_append, List.mem_cons, List.mem_append] at hp ⊢
              tauto
          · simp only [hpv, if_false, Bool.false_eq_true] at hc
            cases hrec : ReplaceCopyIf pred h src (some da :: dst) with
            | ok t =>
              rw [hrec] at hc
              obtain ⟨h'', dst', n⟩ := t
              simp at hc
            | error e =>
              rw [hrec] at hc
              simp only [exc_bind_error, Except.error.injEq] at hc
              subst hc
              refine ih (some da :: dst) h ?_
                (Nat.le_succ_of_le (Nat.le_of_succ_le_succ hlen)) hrec
              intro p hp
              refine hnl p ?_
              simp only [List.cons_append, List.mem_cons, List.mem_append] at hp ⊢
              tauto

/-- `Clone` asserts both pointers before every dereference (the
    destination slot is only overwritten, never dereferenced). -/
theorem Clone_no_ub :
    ∀ (src dst : List Ptr) (h : Heap α),
      (∀ p ∈ src, nullOrLive h p = true) →
      src.length ≤ dst.length →
      Clone h src dst ≠ .error .ub := by
  intro src
  induction src with
  | nil => intro dst h _ _; simp [Clone]
  | cons s src ih =>
    intro dst h hnl hlen
    cases dst with
    | nil => simp at hlen
    | cons d dst =>
      cases d with
      | none =>
        have he : Clone h (s :: src) ((none : Ptr) :: dst) = .error .assertFail := by
          simp [Clone, cassert]
        rw [he]
        simp
      | some da =>
        cases s with
        | none =>
          have he : Clone h ((none : Ptr) :: src) (some da :: dst) =
              .error .assertFail := by
            simp [Clone, cassert]
          rw [he]
          simp
        | some sa =>
          have hnlS : nullOrLive h (some sa) = true := hnl _ (by simp)
          obtain ⟨v, hrv⟩ := readPtr_ok_of_live hnlS
          intro hc
          simp only [Clone, cassert_some, exc_bind_ok, hrv] at hc
          rw [show h.alloc v = (h.store.length, (h.alloc v).2) from rfl] at hc
          dsimp only at hc
          cases hrec : Clone (h.alloc v).2 src dst with
          | ok t =>
            rw [hrec] at hc
            obtain ⟨h'', dst', n⟩ := t
            simp at hc
          | error e =>
            rw [hrec] at hc
            simp only [exc_bind_error, Except.error.injEq] at hc
            subst hc
            refine ih dst (h.alloc v).2 ?_ (Nat.le_of_succ_le_succ hlen) hrec
            intro p hp
            exact nullOrLive_alloc v (hnl p (List.mem_cons_of_mem _ hp))

/-- `CloneIf` asserts both pointers before every dereference, for every
    scanned element whether or not the predicate holds. -/
theorem CloneIf_no_ub (pred : α → Bool) :
    ∀ (src dst : List Ptr) (h : Heap α),
      (∀ p ∈ src, nullOrLive h p = true) →
      src.length ≤ dst.length →
      CloneIf pred h src dst ≠ .error .ub := by
  intro src
  induction src with
  | nil => intro dst h _ _; simp [CloneIf]
  | cons s src ih =>
    intro dst h hnl hlen
    cases dst with
    | nil => simp at hlen
    | cons d dst =>
      cases d with
      | none =>
        have he : CloneIf pred h (s :: src) ((none : Ptr) :: dst) =
            .error .assertFail := by
          simp [CloneIf, cassert]
        rw [he]
        simp
      | some da =>
        cases s with
        | none =>
          have he : CloneIf pred h ((none : Ptr) :: src) (some da :: dst) =
              .error .assertFail := by
            simp [CloneIf, cassert]
          rw [he]
          simp
        | some sa =>
          have hnlS : nullOrLive h (some sa) = true := hnl _ (by simp)
          obtain ⟨v, hrv⟩ := readPtr_ok_of_live hnlS
          intro hc
          simp only [CloneIf, cassert_some, exc_bind_ok, hrv] at hc
          by_cases hpv : pred v
          · simp only [hpv, if_true] at hc
            rw [show h.alloc v = (h.store.length, (h.alloc v).2) from rfl] at hc
            dsimp only at hc
            cases hrec : CloneIf pred (h.alloc v).2 src dst with
            | ok t =>
              rw [hrec] at hc
              obtain ⟨h'', dst', n⟩ := t
              simp at hc
            | error e =>
              rw [hrec] at hc
              simp only [exc_bind_error, Except.error.injEq] at hc
              subst hc
              refine ih dst (h.alloc v).2 ?_ (Nat.le_of_succ_le_succ hlen) hrec
              intro p hp
              exact nullOrLive_alloc v (hnl p (List.mem_cons_of_mem _ hp))
          · simp only [hpv, if_false, Bool.false_eq_true] at hc
            cases hrec : CloneIf pred h src (some da :: dst) with
            | ok t =>
              rw [hrec] at hc
              obtain ⟨h'', dst', n⟩ := t
              simp at hc
            | error e =>
              rw [hrec] at hc
              simp only [exc_bind_error, Except.error.injEq] at hc
              subst hc
              refine ih (some da :: dst) h
                (fun p hp => hnl p (List.mem_cons_of_mem _ hp))
                (Nat.le_succ_of_le (Nat.le_of_succ_le_succ hlen)) hrec

/-- `ReplaceClone` asserts both pointers before every dereference; it
    deletes each destination pointee before cloning the source, so the
    source slots must not alias the destination slots. -/
theorem ReplaceClone_no_ub :
    ∀ (src dst : List Ptr) (h : Heap α),
      (∀ p ∈ src, nullOrLive h p = true) →
      (∀ a ∈ ptrAddrs src, a ∉ ptrAddrs dst) →
      src.length ≤ dst.length →
      ReplaceClone h src dst ≠ .error .ub := by
  intro src
  induction src with
  | nil => intro dst h _ _ _; simp [ReplaceClone]
  | cons s src ih =>
    intro dst h hnl hdisj hlen
    cases dst with
    | nil => simp at hlen
    | cons d dst =>
      cases d with
      | none =>
        have he : ReplaceClone h (s :: src) ((none : Ptr) :: dst) =
            .error .assertFail := by
          simp [ReplaceClone, cassert]
        rw [he]
        simp
      | some da =>
        cases s with
        | none =>
          have he : ReplaceClone h ((none : Ptr) :: src) (some da :: dst) =
              .error .assertFail := by
            simp [ReplaceClone, cassert]
          rw [he]
          simp
        | some sa =>
          have hsada : sa ≠ da := by
            intro hEq
            subst hEq
            exact hdisj sa (by simp) (by simp)
          have hnlS : nullOrLive h (some sa) = true := hnl _ (by simp)
          have hnlS1 : nullOrLive (deletePtr h (some da)) (some sa) = true := by
            refine nullOrLive_delete ?_ hnlS
            intro b hb
            injection hb with hb
            subst hb
            exact hsada
          obtain ⟨v, hrv⟩ := readPtr_ok_of_live hnlS1
          intro hc
          simp only [ReplaceClone, cassert_some, exc_bind_ok, hrv] at hc
          rw [show (deletePtr h (some da)).alloc v =
              ((deletePtr h (some da)).store.length,
               ((deletePtr h (some da)).alloc v).2) from rfl] at hc
          dsimp only at hc
          cases hrec : ReplaceClone ((deletePtr h (some da)).alloc v).2 src dst with
          | ok t =>
            rw [hrec] at hc
            obtain ⟨h'', dst', n⟩ := t
            simp at hc
          | error e =>
            rw [hrec] at hc
            simp only [exc_bind_error, Except.error.injEq] at hc
            subst hc
            refine ih dst ((deletePtr h (some da)).alloc v).2 ?_ ?_
              (Nat.le_of_succ_le_succ hlen) hrec
            · intro p hp
              cases p with
              | none => rfl
              | some pb =>
                have hpbs : pb ∈ ptrAddrs (some sa :: src) := by
                  simp only [ptrAddrs_cons_some, List.mem_cons]
                  exact Or.inr (List.mem_filterMap.mpr ⟨some pb, hp, rfl⟩)
                have hpbd : pb ≠ da := by
                  intro hEq
                  subst hEq
                  exact hdisj pb hpbs (by simp)
                refine nullOrLive_alloc v
                  (nullOrLive_delete ?_ (hnl _ (List.mem_cons_of_mem _ hp)))
                intro b hb
                injection hb with hb
                subst hb
                exact hpbd
            · intro a ha hmem
              exact hdisj a (by simp [ha]) (by simp [hmem])

/-- `ReplaceCloneIf` asserts both pointers before every dereference, for
    every scanned element whether or not the predicate holds; when it
    does hold, the destination pointee is deleted before the source is
    cloned, so the source slots must not alias the destination slots. -/
theorem ReplaceCloneIf_no_ub (pred : α → Bool) :
    ∀ (src dst : List Ptr) (h : Heap α),
      (∀ p ∈ src, nullOrLive h p = true) →
      (∀ a ∈ ptrAddrs src, a ∉ ptrAddrs dst) →
      src.length ≤ dst.length →
      ReplaceCloneIf pred h src dst ≠ .error .ub := by
  intro src
  induction src with
  | nil => intro dst h _ _ _; simp [ReplaceCloneIf]
  | cons s src ih =>
    intro dst h hnl hdisj hlen
    cases dst with
    | nil => simp at hlen
    | cons d dst =>
      cases d with
      | none =>
        have he : ReplaceCloneIf pred h (s :: src) ((none : Ptr) :: dst) =
            .error .assertFail := by
          simp [ReplaceCloneIf, cassert]
        rw [he]
        simp
      | some da =>
        cases s with
        | none =>
          have he : ReplaceCloneIf pred h ((none : Ptr) :: src) (some da :: dst) =
              .error .assertFail := by
            simp [ReplaceCloneIf, cassert]
          rw [he]
          simp
        | some sa =>
          have hsada : sa ≠ da := by
            intro hEq
            subst hEq
            exact hdisj sa (by simp) (by simp)
          have hnlS : nullOrLive h (some sa) = true := hnl _ (by simp)
          obtain ⟨v, hrv⟩ := readPtr_ok_of_live hnlS
          have hnlS1 : nullOrLive (deletePtr h (some da)) (some sa) = true := by
            refine nullOrLive_delete ?_ hnlS
            intro b hb
            injection hb with hb
            subst hb
            exact hsada
          obtain ⟨w, hrw⟩ := readPtr_ok_of_live hnlS1
          intro hc
          simp only [ReplaceCloneIf, cassert_some, exc_bind_ok, hrv] at hc
          by_cases hpv : pred v
          · simp only [hpv, if_true, hrw, exc_bind_ok] at hc
            rw [show (deletePtr h (some da)).alloc w =
                ((deletePtr h (some da)).store.length,
                 ((deletePtr h (some da)).alloc w).2) from rfl] at hc
            dsimp only at hc
            cases hrec : ReplaceCloneIf pred ((deletePtr h (some da)).alloc w).2 src dst with
            | ok t =>
              rw [hrec] at hc
              obtain ⟨h'', dst', n⟩ := t
              simp at hc
            | error e =>
              rw [hrec] at hc
              simp only [exc_bind_error, Except.error.injEq] at hc
              subst hc
              refine ih dst ((deletePtr h (some da)).alloc w).2 ?_ ?_
                (Nat.le_of_succ_le_succ hlen) hrec
              · intro p hp
                cases p with
                | none => rfl
                | some pb =>
                  have hpbs : pb ∈ ptrAddrs (some sa :: src) := by
                    simp only [ptrAddrs_cons_some, List.mem_cons]
                    exact Or.inr (List.mem_filterMap.mpr ⟨some pb, hp, rfl⟩)
                  have hpbd : pb ≠ da := by
                    intro hEq
                    subst hEq
                    exact hdisj pb hpbs (by simp)
                  refine nullOrLive_alloc w
                    (nullOrLive_delete ?_ (hnl _ (List.mem_cons_of_mem _ hp)))
                  intro b hb
                  injection hb with hb
                  subst hb
                  exact hpbd
              · intro a ha hmem
                exact hdisj a (by simp [ha]) (by simp [hmem])
          · simp only [hpv, if_false, Bool.false_eq_true] at hc
            cases hrec : ReplaceCloneIf pred h src (some da :: dst) with
            | ok t =>
              rw [hrec] at hc
              obtain ⟨h'', dst', n⟩ := t
              simp at hc
            | error e =>
              rw [hrec] at hc
              simp only [exc_bind_error, Except.error.injEq] at hc
              subst hc
              refine ih (some da :: dst) h
                (fun p hp => hnl p (List.mem_cons_of_mem _ hp))
                (fun a ha hmem => hdisj a (by simp [ha]) hmem)
                (Nat.le_succ_of_le (Nat.le_of_succ_le_succ hlen)) hrec

/-- Claim C8 counterexample: not every algorithm guards its dereferences
    with an assertion.  `CopyN` has no `assert` in its body: run on a
    null source pointer it reaches undefined behaviour (the `ub` outcome)
    instead of stopping at an assertion failure. -/
theorem C8_counterexample :
    CopyN (⟨[some 7], []⟩ : Heap Nat) [(none : Ptr)] 1 [some 0] = .error .ub ∧
    CopyN (⟨[some 7], []⟩ : Heap Nat) [(none : Ptr)] 1 [some 0] ≠ .error .assertFail := by
  decide

/-- Claim C8 (amended): the copy/clone/replace families — `Copy`,
    `CopyIf`, `ReplaceCopy`, `ReplaceCopyIf`, `Clone`, `CloneIf`,
    `ReplaceClone`, `ReplaceCloneIf` — assert that the source and
    destination pointers are non-null before every dereference, so over
    null-or-live slots they never reach undefined behaviour: a violated
    non-null precondition stops at an assertion failure.  `CopyN`,
    `CopyBackward`, `Remove`, `RemoveIf` and `Unique` contain no
    assertion and dereference unchecked: a null pointer there is
    undefined behaviour, as the concrete runs in the second half show. -/
theorem C8_assertion_coverage (pred : α → Bool) (src dst : List Ptr) (h : Heap α)
    (hnl : ∀ p ∈ src ++ dst, nullOrLive h p = true)
    (hdisj : ∀ a ∈ ptrAddrs src, a ∉ ptrAddrs dst)
    (hlen : src.length ≤ dst.length) :
    (Copy h src dst ≠ .error .ub ∧
     CopyIf pred h src dst ≠ .error .ub ∧
     ReplaceCopy h src dst ≠ .error .ub ∧
     ReplaceCopyIf pred h src dst ≠ .error .ub ∧
     Clone h src dst ≠ .error .ub ∧
     CloneIf pred h src dst ≠ .error .ub ∧
     ReplaceClone h src dst ≠ .error .ub ∧
     ReplaceCloneIf pred h src dst ≠ .error .ub) ∧
    (CopyN (⟨[some 7], []⟩ : Heap Nat) [(none : Ptr)] 1 [some 0] = .error .ub ∧
     CopyBackward (⟨[some 7], []⟩ : Heap Nat) [(none : Ptr)] [some 0] = .error .ub ∧
     Remove (⟨[some 7], []⟩ : Heap Nat) [(none : Ptr)] (5 : Nat) = .error .ub ∧
     RemoveIf (eqPred 5) (⟨[some 7], []⟩ : Heap Nat) [(none : Ptr)] 5 = .error .ub ∧
     Unique (⟨[some 7], []⟩ : Heap Nat) [some 0, (none : Ptr)] = .error .ub) := by
  have hsrc : ∀ p ∈ src, nullOrLive h p = true :=
    fun p hp => hnl p (List.mem_append_left _ hp)
  exact ⟨⟨Copy_no_ub src dst h hnl hlen,
    CopyIf_no_ub pred src dst h hnl hlen,
    ReplaceCopy_no_ub src dst h hnl hlen,
    ReplaceCopyIf_no_ub pred src dst h hnl hlen,
    Clone_no_ub src dst h hsrc hlen,
    CloneIf_no_ub pred src dst h hsrc hlen,
    ReplaceClone_no_ub src dst h hsrc hdisj hlen,
    ReplaceCloneIf_no_ub pred src dst h hsrc hdisj hlen⟩,
    by exact ⟨by decide, by decide, by decide, by decide, by decide⟩⟩

theorem C8_assertion_coverage_witness :
    ((∀ p ∈ (([some 0, some 1] ++ [some 2, some 3]) : List Ptr),
        nullOrLive (⟨[some 10, some 20, some 30, some 40], []⟩ : Heap Nat) p = true) ∧
     (∀ a ∈ ptrAddrs ([some 0, some 1] : List Ptr),
        a ∉ ptrAddrs ([some 2, some 3] : List Ptr)) ∧
     ([some 0, some 1] : List Ptr).length ≤ ([some 2, some 3] : List Ptr).length) ∧
    ((Copy (⟨[some 10, some 20, some 30, some 40], []⟩ : Heap Nat)
        [some 0, some 1] [some 2, some 3] ≠ .error .ub ∧
      CopyIf evenW (⟨[some 10, some 20, some 30, some 40], []⟩ : Heap Nat)
        [some 0, some 1] [some 2, some 3] ≠ .error .ub ∧
      ReplaceCopy (⟨[some 10, some 20, some 30, some 40], []⟩ : Heap Nat)
        [some 0, some 1] [some 2, some 3] ≠ .error .ub ∧
      ReplaceCopyIf evenW (⟨[some 10, some 20, some 30, some 40], []⟩ : Heap Nat)
        [some 0, some 1] [some 2, some 3] ≠ .error .ub ∧
      Clone (⟨[some 10, some 20, some 30, some 40], []⟩ : Heap Nat)
        [some 0, some 1] [some 2, some 3] ≠ .error .ub ∧
      CloneIf evenW (⟨[some 10, some 20, some 30, some 40], []⟩ : Heap Nat)
        [some 0, some 1] [some 2, some 3] ≠ .error .ub ∧
      ReplaceClone (⟨[some 10, some 20, some 30, some 40], []⟩ : Heap Nat)
        [some 0, some 1] [some 2, some 3] ≠ .error .ub ∧
      ReplaceCloneIf evenW (⟨[some 10, some 20, some 30, some 40], []⟩ : Heap Nat)
        [some 0, some 1] [some 2, some 3] ≠ .error .ub) ∧
     (CopyN (⟨[some 7], []⟩ : Heap Nat) [(none : Ptr)] 1 [some 0] = .error .ub ∧
      CopyBackward (⟨[some 7], []⟩ : Heap Nat) [(none : Ptr)] [some 0] = .error .ub ∧
      Remove (⟨[some 7], []⟩ : Heap Nat) [(none : Ptr)] (5 : Nat) = .error .ub ∧
      RemoveIf (eqPred 5) (⟨[some 7], []⟩ : Heap Nat) [(none : Ptr)] 5 = .error .ub ∧
      Unique (⟨[some 7], []⟩ : Heap Nat) [some 0, (none : Ptr)] = .error .ub)) :=
  ⟨⟨by decide, by decide, by decide⟩,
   C8_assertion_coverage evenW [some 0, some 1] [some 2, some 3]
     (⟨[some 10, some 20, some 30, some 40], []⟩ : Heap Nat)
     (by decide) (by decide) (by decide)⟩

end range_of_ptrs
